import Mathlib

/-!
Verification development for the APG package build system
(`internal/archive/archive.go` and `internal/checksum/crc32.go`).

The Go code is shallowly embedded:
* Go strings are `List Char` (`GoStr`); file contents are `List Nat` (bytes).
* The lexical path functions of Go's `path/filepath` used by the code
  (`Clean`, `Join`, `Dir`, `IsAbs`) are embedded by their documented
  lexical semantics on slash-separated Unix paths: split on `'/'`,
  drop empty and `"."` segments, resolve `".."` segments against a
  stack (kept at the front for a relative path, dropped at the root of
  an absolute one), and re-join.
* The filesystem is an explicit association list from path strings to
  nodes; `filepath.Walk` is modelled as the list of visited objects in
  walk order (root excluded), each carrying its path relative to the
  walked root, exactly what the Go code recovers via `filepath.Rel`.
-/

namespace Apg

/-- Go strings, embedded as lists of characters. -/
abbrev GoStr := List Char

/-- The NUL character tested by `strings.ContainsRune(path, 0)`. -/
def nulChar : Char := Char.ofNat 0

/-- The string `".."`. -/
def dotdotS : GoStr := ['.', '.']

/-- The string `"."`. -/
def dotS : GoStr := ['.']

/-- Split a string on a separator character.  Always returns a
non-empty list; splitting the empty string yields `[[]]`. -/
def splitOn (sep : Char) : GoStr → List GoStr
  | [] => [[]]
  | c :: rest =>
    if c = sep then [] :: splitOn sep rest
    else
      match splitOn sep rest with
      | [] => [[c]]
      | s :: ss => (c :: s) :: ss

/-- Split a path string on `'/'`. -/
def splitSlash : GoStr → List GoStr := splitOn '/'

/-- Drop empty and `"."` path segments, as `filepath.Clean` does. -/
def dropEmptyDot (segs : List GoStr) : List GoStr :=
  segs.filter (fun s => !s.isEmpty && decide (s ≠ dotS))

/-- One step of `filepath.Clean`'s `".."` resolution.  The stack holds
the output segments most-recent first.  A `".."` segment pops a normal
segment; at the root of an absolute path it is dropped; at the front of
a relative path it accumulates. -/
def cleanStep (rooted : Bool) (stack : List GoStr) (seg : GoStr) : List GoStr :=
  if seg = dotdotS then
    match stack with
    | [] => if rooted then [] else [dotdotS]
    | t :: rest => if rooted then rest else if t = dotdotS then seg :: t :: rest else rest
  else seg :: stack

/-- The output segment stack of `filepath.Clean` (most-recent first). -/
def cleanStack (rooted : Bool) (s : GoStr) : List GoStr :=
  (dropEmptyDot (splitSlash s)).foldl (cleanStep rooted) []

/-- Join segments with `'/'`. -/
def joinSegs : List GoStr → GoStr
  | [] => []
  | [s] => s
  | s :: rest => s ++ '/' :: joinSegs rest

/-- Render a cleaned segment list back to a path string, as
`filepath.Clean` does: an absolute path keeps its leading slash, and an
empty relative result is `"."`. -/
def renderPath (rooted : Bool) (segs : List GoStr) : GoStr :=
  if rooted then '/' :: joinSegs segs
  else if segs.isEmpty then dotS else joinSegs segs

/-- `filepath.IsAbs` on Unix: the path starts with `'/'`. -/
def goIsAbs (p : GoStr) : Bool := p.head? == some '/'

/-- `filepath.Clean` (Unix): purely lexical shortest equivalent path. -/
def goClean (p : GoStr) : GoStr :=
  renderPath (goIsAbs p) ((cleanStack (goIsAbs p) p).reverse)

/-- `strings.HasPrefix s pre`: does `s` start with `pre`? -/
def goStartsWith : GoStr → GoStr → Bool
  | _, [] => true
  | [], _ :: _ => false
  | c :: s, d :: t => c == d && goStartsWith s t

/-- `strings.Contains s sub`: does `sub` occur as a substring of `s`? -/
def goContains (s sub : GoStr) : Bool :=
  match s with
  | [] => sub.isEmpty
  | _ :: rest => goStartsWith s sub || goContains rest sub

/-- `filepath.Join a b` (Unix): skip empty elements, join the rest with
`'/'`, and `Clean` the result; all elements empty gives `""`. -/
def goJoin (a b : GoStr) : GoStr :=
  if a.isEmpty && b.isEmpty then []
  else if a.isEmpty then goClean b
  else if b.isEmpty then goClean a
  else goClean (a ++ '/' :: b)

/-- The portion of `p` up to and including its last `'/'` (empty when
`p` has no slash), as `filepath.Split` computes it. -/
def takeToLastSlash (p : GoStr) : GoStr :=
  (p.reverse.dropWhile (fun c => decide (c ≠ '/'))).reverse

/-- `filepath.Dir`: everything before the final path element, cleaned. -/
def goDir (p : GoStr) : GoStr := goClean (takeToLastSlash p)

/-- `isPathSafe` from `internal/archive/archive.go`: reject empty paths,
paths containing the substring `".."`, absolute paths, paths containing
a NUL character, and finally require that the cleaned join of base and
path starts with the cleaned base. -/
def isPathSafe (path baseDir : GoStr) : Bool :=
  if path.isEmpty then false
  else if goContains path dotdotS then false
  else if goIsAbs path then false
  else if path.contains nulChar then false
  else goStartsWith (goClean (goJoin baseDir path)) (goClean baseDir)

/-- The polynomial `crc32.IEEE` in the reversed-bit form `0xEDB88320`
used by Go's `hash/crc32` table computation. -/
def crc32Poly : Nat := 0xEDB88320

/-- One bit step of the CRC32 table computation: shift right and xor
the polynomial when the low bit is set. -/
def crc32Round (c : Nat) : Nat :=
  if c % 2 = 1 then (c / 2) ^^^ crc32Poly else c / 2

/-- Entry `i` of `crc32.MakeTable(crc32.IEEE)`: eight bit rounds. -/
def crc32TableEntry (i : Nat) : Nat :=
  crc32Round (crc32Round (crc32Round (crc32Round
    (crc32Round (crc32Round (crc32Round (crc32Round i)))))))

/-- One byte of the table-driven CRC32 update:
`crc = table[(crc ^ b) & 0xFF] ^ (crc >> 8)`. -/
def crc32UpdateByte (crc b : Nat) : Nat :=
  crc32TableEntry ((crc ^^^ b) % 256) ^^^ (crc / 256)

/-- Go's `crc32.update`: complement the running value, process the
bytes through the table, and complement again. -/
def crc32update (crc : Nat) (p : List Nat) : Nat :=
  (p.foldl crc32UpdateByte (crc ^^^ 0xFFFFFFFF)) ^^^ 0xFFFFFFFF

/-- `CalculateCRC32Bytes` from `internal/checksum/crc32.go`:
`crc32.Checksum(data, CRC32Table)`, i.e. one update from zero. -/
def CalculateCRC32Bytes (data : List Nat) : Nat := crc32update 0 data

/-- A file as seen by `CalculateCRC32`: the path it was opened under
and its content bytes. -/
structure FileData where
  name : GoStr
  content : List Nat
deriving DecidableEq

/-- The 64 KiB read chunks of `CalculateCRC32`'s read loop, with a
structural fuel argument (each iteration consumes at least one byte,
so `l.length` fuel always suffices). -/
def chunksOfAux : Nat → List Nat → List (List Nat)
  | _, [] => []
  | 0, _ :: _ => []
  | fuel + 1, c :: rest =>
    (c :: rest).take 65536 :: chunksOfAux fuel ((c :: rest).drop 65536)

/-- The 64 KiB read chunks of `CalculateCRC32`'s read loop. -/
def chunksOf (l : List Nat) : List (List Nat) := chunksOfAux l.length l

/-- `CalculateCRC32` from `internal/checksum/crc32.go`: stream the file
through `hash.Write` in 64 KiB chunks and return `Sum32`.  Each `Write`
performs one `crc32update` on the running digest. -/
def CalculateCRC32 (f : FileData) : Nat :=
  (chunksOf f.content).foldl crc32update 0

/-- `Entry` from `internal/checksum/crc32.go`: one checksum record. -/
structure Entry where
  checksum : Nat
  path : GoStr
deriving DecidableEq

/-- One filesystem object visited by `filepath.Walk`, carrying its path
relative to the walked root (the root itself, `"."`, is not listed). -/
structure WalkItem where
  path : GoStr
  isDir : Bool
  content : List Nat
deriving DecidableEq

/-- Lowercase hexadecimal digit for a value below 16. -/
def hexDigitChar (n : Nat) : Char :=
  if n < 10 then Char.ofNat (48 + n) else Char.ofNat (87 + n)

/-- The `k` low hex digits of `n`, most significant first. -/
def toHexAux : Nat → Nat → GoStr
  | 0, _ => []
  | k + 1, n => toHexAux k (n / 16) ++ [hexDigitChar (n % 16)]

/-- Go's `%08x` for a `uint32` value. -/
def toHex8 (n : Nat) : GoStr := toHexAux 8 n

/-- One manifest line, `fmt.Fprintf(file, "%08x  %s\n", ...)`. -/
def sumsLine (e : Entry) : GoStr :=
  toHex8 e.checksum ++ ' ' :: ' ' :: e.path ++ ['\n']

/-- `CreateCRC32Sums` from `internal/checksum/crc32.go`: walk the
directory in order, skip directories, digest each regular file, and
write one line per record; returns the record list and the manifest
text. -/
def CreateCRC32Sums (fs : List WalkItem) : List Entry × GoStr :=
  let entries := fs.foldl
    (fun acc it =>
      if it.isDir then acc
      else acc ++ [⟨CalculateCRC32 ⟨it.path, it.content⟩, it.path⟩])
    []
  (entries, (entries.map sumsLine).flatten)

/-- Strip one trailing carriage return, as `bufio.ScanLines` does. -/
def dropCR (s : GoStr) : GoStr :=
  if s.getLast? = some '\r' then s.dropLast else s

/-- The lines produced by `bufio.Scanner` with `ScanLines`: split on
`'\n'`, do not emit a final empty token after a trailing newline, and
strip a trailing `'\r'` from each line.  (The scanner's 64 KiB maximum
token size is not modelled; every input considered here is far below
it.) -/
def scanLines (s : GoStr) : List GoStr :=
  let ls := splitOn '\n' s
  (if ls.getLast? = some [] then ls.dropLast else ls).map dropCR

/-- `strings.SplitN(line, "  ", 2)`: `none` when the two-space
separator does not occur (fewer than two fields), otherwise the text
before the first occurrence and everything after it. -/
def splitN2 : GoStr → Option (GoStr × GoStr)
  | [] => none
  | c :: rest =>
    if c = ' ' ∧ rest.head? = some ' ' then some ([], rest.tail)
    else (splitN2 rest).map (fun ab => (c :: ab.1, ab.2))

/-- Decide whether a character is an ASCII hexadecimal digit. -/
def isHexDigitC (c : Char) : Bool :=
  ('0' ≤ c && c ≤ '9') || ('a' ≤ c && c ≤ 'f') || ('A' ≤ c && c ≤ 'F')

/-- Numeric value of a hexadecimal digit. -/
def hexVal (c : Char) : Nat :=
  if '0' ≤ c && c ≤ '9' then c.toNat - 48
  else if 'a' ≤ c && c ≤ 'f' then c.toNat - 87
  else c.toNat - 55

/-- ASCII blank skipped by `fmt`'s scanner before a verb. -/
def isSpaceC (c : Char) : Bool := c == ' ' || c == '\t'

/-- `fmt.Sscanf(field, "%x", &u)` for `u : uint32`: skip leading
blanks, read the maximal run of hex digits (error if there is none),
and range-check against 32 bits.  Unconsumed trailing input is not an
error for `Sscanf`. -/
def parseHex32 (s : GoStr) : Option Nat :=
  let t := s.dropWhile isSpaceC
  let ds := t.takeWhile isHexDigitC
  if ds.isEmpty then none
  else
    let v := ds.foldl (fun a c => a * 16 + hexVal c) 0
    if v < 2 ^ 32 then some v else none

/-- Resolve `filepath.Join(baseDir, path)` against the walked
directory: a found directory gives a read error (`none`), a missing
path an open error (`none`), a regular file its bytes. -/
def lookupContent (fs : List WalkItem) (p : GoStr) : Option (List Nat) :=
  match fs.find? (fun it => it.path == p) with
  | some it => if it.isDir then none else some it.content
  | none => none

/-- One iteration of `VerifyCRC32Sums`' scanner loop: skip an empty
line or a line without the two-space separator; a field that does not
scan as a 32-bit hex number marks the record's path failed; a digest
recomputation error or a mismatch marks it failed; a match marks it
passed. -/
def verifyStep (fs : List WalkItem) (pf : List GoStr × List GoStr) (line : GoStr) :
    List GoStr × List GoStr :=
  if line.isEmpty then pf
  else
    match splitN2 line with
    | none => pf
    | some (sumField, path) =>
      match parseHex32 sumField with
      | none => (pf.1, pf.2 ++ [path])
      | some expected =>
        match lookupContent fs path with
        | none => (pf.1, pf.2 ++ [path])
        | some content =>
          if CalculateCRC32 ⟨path, content⟩ = expected then (pf.1 ++ [path], pf.2)
          else (pf.1, pf.2 ++ [path])

/-- `VerifyCRC32Sums` from `internal/checksum/crc32.go`: scan the
manifest line by line, classifying each record as passed or failed. -/
def VerifyCRC32Sums (m : GoStr) (fs : List WalkItem) : List GoStr × List GoStr :=
  (scanLines m).foldl (verifyStep fs) ([], [])

/-- `MaxFileSize` (100 MB) from `internal/archive/archive.go`. -/
def MaxFileSize : Int := 100 * 1024 * 1024

/-- `MaxArchiveSize` (1 GB) from `internal/archive/archive.go`. -/
def MaxArchiveSize : Int := 1024 * 1024 * 1024

/-- `MaxFiles` from `internal/archive/archive.go`. -/
def MaxFiles : Nat := 10000

/-- Tar type flags used by `Extract`'s switch. -/
inductive TypeFlag
  | reg
  | dir
  | symlink
  | link
deriving DecidableEq

/-- One tar entry of the container stream: the header fields `Extract`
reads plus the content bytes that follow a regular-file header. -/
structure TarEntry where
  name : GoStr
  size : Int
  mode : Nat
  typeflag : TypeFlag
  linkname : GoStr
  content : List Nat
deriving DecidableEq

/-- Kinds of filesystem objects `Create` archives. -/
inductive FKind
  | reg
  | dir
  | symlink
deriving DecidableEq

/-- One filesystem object visited by `Create`'s `filepath.Walk`, in
walk order, with its path relative to the source directory (the root
itself is skipped).  `content` is meaningful for regular files and
`linkTarget` for symlinks. -/
structure TreeEntry where
  relPath : GoStr
  kind : FKind
  mode : Nat
  content : List Nat
  linkTarget : GoStr
deriving DecidableEq

/-- `CreateResult` from `internal/archive/archive.go`. -/
structure CreateResult where
  FilesAdded : Nat
  TotalSize : Int
deriving DecidableEq

/-- The tar entry `Create` writes for one walked object:
`tar.FileInfoHeader` gives the mode and, for regular files, the size;
`header.Name` is the relative path; symlinks carry their read link
target; content bytes are streamed for regular files only. -/
def toTar (e : TreeEntry) : TarEntry where
  name := e.relPath
  size := match e.kind with | .reg => (e.content.length : Int) | _ => 0
  mode := e.mode
  typeflag := match e.kind with | .reg => .reg | .dir => .dir | .symlink => .symlink
  linkname := match e.kind with | .symlink => e.linkTarget | _ => []
  content := match e.kind with | .reg => e.content | _ => []

/-- The number of content bytes `Create` streams for one walked
object: the file length for a regular file, nothing otherwise. -/
def regSize (e : TreeEntry) : Int :=
  match e.kind with | .reg => (e.content.length : Int) | _ => 0

/-- One iteration of `Create`'s walk callback: emit the tar entry,
stream content and add its length to `TotalSize` for a regular file,
and increment `FilesAdded` unconditionally. -/
def createStep (acc : List TarEntry × CreateResult) (e : TreeEntry) :
    List TarEntry × CreateResult :=
  (acc.1 ++ [toTar e],
   { FilesAdded := acc.2.FilesAdded + 1
     TotalSize := acc.2.TotalSize + regSize e })

/-- `Create` from `internal/archive/archive.go`: walk the source tree
in order, emitting one tar entry per object (the root is skipped and
not part of the walk list). -/
def Create (tree : List TreeEntry) : List TarEntry × CreateResult :=
  tree.foldl createStep ([], ⟨0, 0⟩)

/-- A filesystem node produced by extraction. -/
inductive Node
  | file (mode : Nat) (content : List Nat)
  | dirn (mode : Nat)
  | symlinkn (target : GoStr)
deriving DecidableEq

/-- The destination filesystem: an association list from path strings
to nodes, in creation order. -/
abbrev FS := List (GoStr × Node)

/-- Look a path up in the destination filesystem. -/
def fsFind (fs : FS) (k : GoStr) : Option Node :=
  (fs.find? (fun kv => kv.1 == k)).map (fun kv => kv.2)

/-- Replace the node stored at a path. -/
def fsSet (fs : FS) (k : GoStr) (n : Node) : FS :=
  fs.map (fun kv => if kv.1 == k then (kv.1, n) else kv)

/-- The chain of paths `os.MkdirAll` examines for a lexically clean
path: each non-empty segment prefix, rendered back to a string. -/
def pathChain (p : GoStr) : List GoStr :=
  let rooted := goIsAbs p
  let segs := dropEmptyDot (splitSlash p)
  (List.range segs.length).map (fun i => renderPath rooted (segs.take (i + 1)))

/-- `os.MkdirAll(p, mode)` on the modelled filesystem: walk the chain
of ancestors, leave existing directories alone, fail on an existing
non-directory, and create every missing directory with the given
permission.  (`"."` and `"/"` always exist and have empty chains.) -/
def mkdirAll (fs : FS) (p : GoStr) (mode : Nat) : Option FS :=
  (pathChain p).foldlM
    (fun acc q =>
      match fsFind acc q with
      | some (.dirn _) => some acc
      | some _ => none
      | none => some (acc ++ [(q, .dirn mode)]))
    fs

/-- Apply one tar entry to the destination filesystem, as `Extract`'s
switch does.  `none` is a fatal I/O error (its partial on-disk effects
are not modelled, since extraction aborts there).  Regular files are
opened with `O_CREATE|O_WRONLY|O_TRUNC`: a fresh file gets the header
mode, an existing file keeps its mode and gets new content.  A symlink
that already exists is silently kept (`os.IsExist` is ignored); a hard
link whose resolved target is missing is skipped with a warning. -/
def applyEntry (destDir : GoStr) (fs : FS) (e : TarEntry) : Option FS :=
  let targetPath := goJoin destDir e.name
  match e.typeflag with
  | .dir => mkdirAll fs targetPath e.mode
  | .reg =>
    match mkdirAll fs (goDir targetPath) 493 with
    | none => none
    | some fs1 =>
      match fsFind fs1 targetPath with
      | none => some (fs1 ++ [(targetPath, .file e.mode e.content)])
      | some (.file m _) => some (fsSet fs1 targetPath (.file m e.content))
      | some _ => none
  | .symlink =>
    match mkdirAll fs (goDir targetPath) 493 with
    | none => none
    | some fs1 =>
      match fsFind fs1 targetPath with
      | some _ => some fs1
      | none => some (fs1 ++ [(targetPath, .symlinkn e.linkname)])
  | .link =>
    match mkdirAll fs (goDir targetPath) 493 with
    | none => none
    | some fs1 =>
      match fsFind fs1 (goJoin destDir e.linkname) with
      | some n =>
        match fsFind fs1 targetPath with
        | none => some (fs1 ++ [(targetPath, n)])
        | some _ => some fs1
      | none => some fs1

/-- Outcome of the extraction loop. -/
inductive Outcome
  | ok
  | fatal (msg : GoStr)
deriving DecidableEq

/-- State threaded through `Extract`'s entry loop. -/
structure ExtractSt where
  fs : FS
  totalSize : Int
  fileCount : Nat
deriving DecidableEq

/-- The message of `Extract`'s cumulative size abort. -/
def archiveTooLargeMsg : GoStr := "archive too large (>1GB limit)".data

/-- The message of `Extract`'s entry count abort. -/
def tooManyFilesMsg : GoStr := "too many files in archive (>10000 limit)".data

/-- The abort used when applying an entry fails with an I/O error. -/
def ioErrorMsg : GoStr := "io error".data

/-- The entry loop of `Extract` from `internal/archive/archive.go`:
per entry, skip (warn, continue) on an unsafe path or an over-sized
file; then add the declared size to the running total and abort
fatally past `MaxArchiveSize`; then count the entry and abort fatally
past `MaxFiles`; finally apply the entry to the filesystem.  A fatal
abort returns the state as it was before the offending entry. -/
def extractEntries (destDir : GoStr) : List TarEntry → ExtractSt → ExtractSt × Outcome
  | [], st => (st, .ok)
  | e :: rest, st =>
    if !isPathSafe e.name destDir then extractEntries destDir rest st
    else if MaxFileSize < e.size then extractEntries destDir rest st
    else
      let total := st.totalSize + e.size
      if MaxArchiveSize < total then (st, .fatal archiveTooLargeMsg)
      else
        let count := st.fileCount + 1
        if MaxFiles < count then (st, .fatal tooManyFilesMsg)
        else
          match applyEntry destDir st.fs e with
          | none => (st, .fatal ioErrorMsg)
          | some fs1 => extractEntries destDir rest ⟨fs1, total, count⟩

/-- The destination directory and its ancestors, which exist on disk
before extraction begins. -/
def initFS (destDir : GoStr) (m : Nat) : FS :=
  (pathChain (goClean destDir)).map (fun q => (q, .dirn m))

/-- Run the extraction loop from the initial destination state. -/
def extractRun (destDir : GoStr) (m : Nat) (entries : List TarEntry) : ExtractSt × Outcome :=
  extractEntries destDir entries ⟨initFS destDir m, 0, 0⟩

/-! ### Auxiliary definitions used by the statements and proofs -/

/-- The cleaned segments of a path: split on `'/'`, drop empty and
`"."` segments. -/
def segsOf (p : GoStr) : List GoStr := dropEmptyDot (splitSlash p)

/-- A well-formed single path segment as a real directory walk
produces it: non-empty, no separator, not `"."` or `".."`, containing
neither the substring `".."` nor a NUL character. -/
def GoodSeg (s : GoStr) : Prop :=
  s ≠ [] ∧ '/' ∉ s ∧ s ≠ dotS ∧ s ≠ dotdotS ∧
  goContains s dotdotS = false ∧ nulChar ∉ s

instance (s : GoStr) : Decidable (GoodSeg s) := by
  unfold GoodSeg
  infer_instance

/-- A well-formed relative path as `filepath.Rel` returns it for an
object inside the walked root: non-empty, relative, in clean segment
form, with every segment well-formed. -/
def GoodRel (p : GoStr) : Prop :=
  p ≠ [] ∧ goIsAbs p = false ∧ segsOf p ≠ [] ∧
  (∀ t ∈ segsOf p, GoodSeg t) ∧ p = joinSegs (segsOf p)

instance (p : GoStr) : Decidable (GoodRel p) := by
  unfold GoodRel
  infer_instance

/-- Shape invariant of the `cleanStep` stack: the `".."` segments that
survive cleaning sit at the bottom of the stack, and an absolute path
has none. -/
def StackOK (r : Bool) (st : List GoStr) : Prop :=
  ∃ A B, st = A ++ B ∧ (∀ a ∈ A, a ≠ dotdotS) ∧ (∀ b ∈ B, b = dotdotS) ∧
    (r = true → B = [])

/-- The relative paths of the regular files in walk order. -/
def filePaths (fs : List WalkItem) : List GoStr :=
  (fs.filter (fun it => !it.isDir)).map (fun it => it.path)

/-- Replace the content stored at one path of the walked tree. -/
def modifyFS (fs : List WalkItem) (p : GoStr) (newc : List Nat) : List WalkItem :=
  fs.map (fun it => if it.path = p then ⟨it.path, it.isDir, newc⟩ else it)

/-- How one manifest line is classified by the verification loop:
`none` when the line is skipped (empty, or no two-space separator),
otherwise the passed/failed flag together with the record's path. -/
def classifyLine (fs : List WalkItem) (line : GoStr) : Option (Bool × GoStr) :=
  if line.isEmpty then none
  else
    match splitN2 line with
    | none => none
    | some (sumField, path) =>
      match parseHex32 sumField with
      | none => some (false, path)
      | some expected =>
        match lookupContent fs path with
        | none => some (false, path)
        | some content =>
          some (decide (CalculateCRC32 ⟨path, content⟩ = expected), path)

/-- The path a line contributes to the passed list, if any. -/
def passOf (fs : List WalkItem) (l : GoStr) : Option GoStr :=
  match classifyLine fs l with
  | some (true, q) => some q
  | _ => none

/-- The path a line contributes to the failed list, if any. -/
def failOf (fs : List WalkItem) (l : GoStr) : Option GoStr :=
  match classifyLine fs l with
  | some (false, q) => some q
  | _ => none

/-- One manifest line without its trailing newline: the eight hex
digits, the two-space separator and the record's path. -/
def bodyOf (e : Entry) : GoStr := toHex8 e.checksum ++ ' ' :: ' ' :: e.path

/-- Walked trees whose relative paths round-trip through the
line-oriented manifest: distinct paths without newline or carriage
return characters. -/
def GoodManifestFS (fs : List WalkItem) : Prop :=
  (fs.map (fun it => it.path)).Nodup ∧
  ∀ it ∈ fs, '\n' ∉ it.path ∧ '\r' ∉ it.path

instance (fs : List WalkItem) : Decidable (GoodManifestFS fs) := by
  unfold GoodManifestFS
  infer_instance

/-- The strictly shorter non-empty segment prefixes of a path. -/
def ancestorsStrict (segs : List GoStr) : List (List GoStr) :=
  (List.range (segs.length - 1)).map (fun i => segs.take (i + 1))

/-- Walk-order closure: when an entry is visited, every strict
ancestor of its path has already been visited as a directory — which
`filepath.Walk` guarantees for a real tree. -/
def walkClosedFrom (dirs : List (List GoStr)) : List TreeEntry → Bool
  | [] => true
  | e :: rest =>
    (ancestorsStrict (segsOf e.relPath)).all (fun q => dirs.contains q) &&
    walkClosedFrom (if e.kind = FKind.dir then segsOf e.relPath :: dirs else dirs) rest

/-- Trees for which the amended round-trip holds: well-formed relative
paths, distinct, walk-closed, within the per-file, cumulative and
count ceilings. -/
def GoodTree (tree : List TreeEntry) : Prop :=
  (∀ e ∈ tree, GoodRel e.relPath) ∧
  (tree.map (fun e => e.relPath)).Nodup ∧
  walkClosedFrom [] tree = true ∧
  (∀ e ∈ tree, e.kind = FKind.reg → (e.content.length : Int) ≤ MaxFileSize) ∧
  (tree.map regSize).sum ≤ MaxArchiveSize ∧
  tree.length ≤ MaxFiles

instance (tree : List TreeEntry) : Decidable (GoodTree tree) := by
  unfold GoodTree
  infer_instance

/-- The filesystem node extraction is expected to materialise for one
packed tree entry, keyed by the joined target path. -/
def extractedNode (destDir : GoStr) (e : TreeEntry) : GoStr × Node :=
  (goJoin destDir e.relPath,
   match e.kind with
   | .reg => Node.file e.mode e.content
   | .dir => Node.dirn e.mode
   | .symlink => Node.symlinkn e.linkTarget)

/-! ### Basic lemmas about the CRC32 embedding -/

theorem crc32update_nil (c : Nat) : crc32update c [] = c := by
  simp [crc32update, Nat.xor_assoc]

theorem crc32update_append (c : Nat) (a b : List Nat) :
    crc32update (crc32update c a) b = crc32update c (a ++ b) := by
  simp [crc32update, List.foldl_append, Nat.xor_assoc]

theorem chunksOfAux_foldl :
    ∀ (fuel : Nat) (l : List Nat), l.length ≤ fuel → ∀ c,
      (chunksOfAux fuel l).foldl crc32update c = crc32update c l := by
  intro fuel
  induction fuel with
  | zero =>
    intro l hl c
    have hnil : l = [] := List.eq_nil_of_length_eq_zero (Nat.le_zero.mp hl)
    subst hnil
    simp [chunksOfAux, crc32update_nil]
  | succ n ih =>
    intro l hl c
    cases l with
    | nil => simp [chunksOfAux, crc32update_nil]
    | cons x xs =>
      rw [chunksOfAux]
      rw [List.foldl_cons]
      rw [ih ((x :: xs).drop 65536) (by simp [List.length_drop] at hl ⊢; omega)]
      rw [crc32update_append, List.take_append_drop]

/-- The streamed, chunked file digest equals the one-shot digest of the
file's content bytes; in particular it does not depend on the name. -/
theorem CalculateCRC32_eq_bytes (f : FileData) :
    CalculateCRC32 f = CalculateCRC32Bytes f.content := by
  unfold CalculateCRC32 CalculateCRC32Bytes chunksOf
  exact chunksOfAux_foldl f.content.length f.content (Nat.le_refl _) 0

/-! ### Claim C4 -/

set_option maxRecDepth 100000 in
/-- C4: the digest is a pure function of the input bytes only — the
chunked file digest equals the one-shot byte digest and is independent
of the file name; the digest of the empty input is the stable value 0;
the digest of the 5-byte input `"hello"` is `0x3610a686` and the
digest of `"hello world"` is `0x0d4a1185`. -/
theorem C4_digest_determinism :
    (∀ f : FileData, CalculateCRC32 f = CalculateCRC32Bytes f.content) ∧
    (∀ (n1 n2 : GoStr) (c : List Nat), CalculateCRC32 ⟨n1, c⟩ = CalculateCRC32 ⟨n2, c⟩) ∧
    CalculateCRC32Bytes [] = 0 ∧
    CalculateCRC32Bytes [104, 101, 108, 108, 111] = 0x3610a686 ∧
    CalculateCRC32Bytes [104, 101, 108, 108, 111, 32, 119, 111, 114, 108, 100] = 0x0d4a1185 := by
  refine ⟨CalculateCRC32_eq_bytes, ?_, by decide, by decide, by decide⟩
  intro n1 n2 c
  rw [CalculateCRC32_eq_bytes ⟨n1, c⟩, CalculateCRC32_eq_bytes ⟨n2, c⟩]

/-! ### Claim C8 -/

/-- C8: the three resource ceilings are fixed package-level constants
of the extraction code (100 MiB, 1 GiB, 10000). -/
theorem C8_limits_fixed_constants :
    MaxFileSize = 104857600 ∧ MaxArchiveSize = 1073741824 ∧ MaxFiles = 10000 := by
  refine ⟨?_, ?_, ?_⟩ <;> decide

/-! ### Claim C10 -/

/-- C10: any entry path containing the two-character substring `".."`
anywhere — even inside a single name that forms no `..` segment — is
rejected by `isPathSafe` for every destination directory, and the
extraction loop skips such an entry and continues with the rest. -/
theorem C10_dotdot_substring_skipped (p d : GoStr) (h : goContains p dotdotS = true) :
    isPathSafe p d = false ∧
    ∀ (e : TarEntry) (rest : List TarEntry) (st : ExtractSt), e.name = p →
      extractEntries d (e :: rest) st = extractEntries d rest st := by
  have hp : isPathSafe p d = false := by
    cases p with
    | nil => simp [goContains, dotdotS] at h
    | cons c cs => simp [isPathSafe, h]
  refine ⟨hp, ?_⟩
  intro e rest st he
  rw [extractEntries]
  simp [he, hp]

/-- Witness for C10 at the concrete path `"a..b/file.txt"`. -/
theorem C10_witness : isPathSafe "a..b/file.txt".data "/tmp/test".data = false :=
  (C10_dotdot_substring_skipped "a..b/file.txt".data "/tmp/test".data (by decide)).1

/-! ### Claim C9 -/

/-- The packing fold, characterised: the archive is the per-entry tar
records in walk order, `FilesAdded` counts every walked object, and
`TotalSize` sums the streamed content bytes of regular files. -/
theorem Create_spec (tree : List TreeEntry) :
    Create tree = (tree.map toTar, ⟨tree.length, (tree.map regSize).sum⟩) := by
  unfold Create
  suffices h : ∀ (t : List TreeEntry) (acc : List TarEntry × CreateResult),
      t.foldl createStep acc =
        (acc.1 ++ t.map toTar,
         ⟨acc.2.FilesAdded + t.length, acc.2.TotalSize + (t.map regSize).sum⟩) by
    rw [h]
    simp
  intro t
  induction t with
  | nil => intro acc; simp
  | cons e t ih =>
    intro acc
    rw [List.foldl_cons, ih]
    simp [createStep]
    constructor
    · omega
    · ring

/-- Counterexample to C9 as stated: packing a directory plus one
regular file reports `FilesAdded = 2`, while only one entry had
content streamed. -/
theorem C9_counterexample :
    (Create [⟨"d".data, .dir, 493, [], []⟩, ⟨"d/f".data, .reg, 420, [104, 105], []⟩]).2.FilesAdded = 2 ∧
    ([⟨"d".data, .dir, 493, [], []⟩,
      (⟨"d/f".data, .reg, 420, [104, 105], []⟩ : TreeEntry)].filter
        (fun e => e.kind == FKind.reg)).length = 1 := by
  refine ⟨?_, by decide⟩
  decide

/-- C9 as amended: after a successful pack, `TotalSize` is the sum of
the content bytes of the regular files (directories and symlinks
contribute nothing), while `FilesAdded` counts every emitted entry —
regular files, directories and symlinks alike. -/
theorem C9_amended (tree : List TreeEntry) :
    (Create tree).2.TotalSize = (tree.map regSize).sum ∧
    (Create tree).2.FilesAdded = tree.length := by
  rw [Create_spec]
  exact ⟨rfl, rfl⟩

/-! ### Claim C3 -/

/-- C3: once an entry has passed the per-entry skip checks, if the
running total of declared sizes exceeds `MaxArchiveSize` the whole
extraction aborts fatally with the size message, and otherwise if the
entry count exceeds `MaxFiles` it aborts fatally with the count
message; in both cases the returned state is exactly the state before
the offending entry, so neither it nor any later entry is applied, and
neither check is skip-and-continue. -/
theorem C3_ceilings_fatal (d : GoStr) (e : TarEntry) (rest : List TarEntry)
    (st : ExtractSt) (hsafe : isPathSafe e.name d = true)
    (hsize : e.size ≤ MaxFileSize) :
    (MaxArchiveSize < st.totalSize + e.size →
      extractEntries d (e :: rest) st = (st, .fatal archiveTooLargeMsg)) ∧
    (st.totalSize + e.size ≤ MaxArchiveSize → MaxFiles < st.fileCount + 1 →
      extractEntries d (e :: rest) st = (st, .fatal tooManyFilesMsg)) := by
  constructor
  · intro hover
    rw [extractEntries]
    simp [hsafe, not_lt.mpr hsize, hover]
  · intro hfit hcount
    rw [extractEntries]
    simp [hsafe, not_lt.mpr hsize, not_lt.mpr hfit, hcount]

/-- Witness for C3: a safe 100 MiB entry aborts the size ceiling from
a state near the 1 GiB limit, and aborts the count ceiling from a
state with 10000 processed entries. -/
theorem C3_witness :
    extractEntries "/dst".data [⟨"a".data, 104857600, 420, .reg, [], []⟩]
      ⟨[], 1030000000, 0⟩ = (⟨[], 1030000000, 0⟩, .fatal archiveTooLargeMsg) ∧
    extractEntries "/dst".data [⟨"a".data, 104857600, 420, .reg, [], []⟩]
      ⟨[], 0, 10000⟩ = (⟨[], 0, 10000⟩, .fatal tooManyFilesMsg) :=
  ⟨(C3_ceilings_fatal "/dst".data ⟨"a".data, 104857600, 420, .reg, [], []⟩ []
      ⟨[], 1030000000, 0⟩ (by decide) (by decide)).1 (by decide),
   (C3_ceilings_fatal "/dst".data ⟨"a".data, 104857600, 420, .reg, [], []⟩ []
      ⟨[], 0, 10000⟩ (by decide) (by decide)).2 (by decide) (by decide)⟩

/-! ### Lemmas about splitting and joining path segments -/

theorem splitOn_ne_nil (sep : Char) (s : GoStr) : splitOn sep s ≠ [] := by
  cases s with
  | nil => simp [splitOn]
  | cons c rest =>
    simp only [splitOn]
    split
    · simp
    · split <;> simp

theorem splitOn_append (sep : Char) (a b : GoStr) :
    splitOn sep (a ++ sep :: b) = splitOn sep a ++ splitOn sep b := by
  induction a with
  | nil => simp [splitOn]
  | cons c a2 ih =>
    by_cases hc : c = sep
    · subst hc
      simp only [List.cons_append, List.append_eq, splitOn, if_pos rfl]
      simp [ih]
    · obtain ⟨s, ss, hsa⟩ : ∃ s ss, splitOn sep a2 = s :: ss := by
        cases h : splitOn sep a2 with
        | nil => exact absurd h (splitOn_ne_nil sep a2)
        | cons s ss => exact ⟨s, ss, rfl⟩
      simp only [List.cons_append, List.append_eq, splitOn, if_neg hc]
      rw [ih, hsa]
      simp

theorem splitOn_no_sep (sep : Char) (s : GoStr) (h : sep ∉ s) : splitOn sep s = [s] := by
  induction s with
  | nil => simp [splitOn]
  | cons c rest ih =>
    have hc : c ≠ sep := fun e => h (by simp [e])
    have hr : sep ∉ rest := fun m => h (List.mem_cons_of_mem _ m)
    simp [splitOn, hc, ih hr]

theorem mem_splitOn_no_sep (sep : Char) (s : GoStr) :
    ∀ t ∈ splitOn sep s, sep ∉ t := by
  induction s with
  | nil =>
    intro t ht
    simp [splitOn] at ht
    subst ht
    simp
  | cons c rest ih =>
    intro t ht
    by_cases hc : c = sep
    · subst hc
      simp only [splitOn, if_pos rfl] at ht
      rcases List.mem_cons.mp ht with h1 | h2
      · subst h1; simp
      · exact ih t h2
    · obtain ⟨s0, ss, hsa⟩ : ∃ s0 ss, splitOn sep rest = s0 :: ss := by
        cases h : splitOn sep rest with
        | nil => exact absurd h (splitOn_ne_nil sep rest)
        | cons s0 ss => exact ⟨s0, ss, rfl⟩
      simp only [splitOn, if_neg hc, hsa] at ht
      rcases List.mem_cons.mp ht with h1 | h2
      · subst h1
        intro hm
        rcases List.mem_cons.mp hm with h3 | h4
        · exact hc h3.symm
        · exact ih s0 (by rw [hsa]; simp) h4
      · exact ih t (by rw [hsa]; exact List.mem_cons_of_mem _ h2)

theorem joinSegs_append (a b : List GoStr) (ha : a ≠ []) (hb : b ≠ []) :
    joinSegs (a ++ b) = joinSegs a ++ '/' :: joinSegs b := by
  induction a with
  | nil => exact absurd rfl ha
  | cons s a2 ih =>
    cases a2 with
    | nil =>
      cases b with
      | nil => exact absurd rfl hb
      | cons x bs => simp [joinSegs]
    | cons s2 a3 =>
      have h2 := ih (by simp)
      simp only [List.cons_append] at h2 ⊢
      rw [show joinSegs (s :: s2 :: (a3 ++ b)) = s ++ '/' :: joinSegs (s2 :: (a3 ++ b)) from by
        simp [joinSegs]]
      rw [show joinSegs (s :: s2 :: a3) = s ++ '/' :: joinSegs (s2 :: a3) from by
        simp [joinSegs]]
      rw [h2]
      simp

theorem splitSlash_joinSegs (segs : List GoStr) (hne : segs ≠ [])
    (h : ∀ t ∈ segs, t ≠ [] ∧ '/' ∉ t) :
    splitSlash (joinSegs segs) = segs := by
  induction segs with
  | nil => exact absurd rfl hne
  | cons s rest ih =>
    cases rest with
    | nil =>
      show splitOn '/' (joinSegs [s]) = [s]
      rw [show joinSegs [s] = s from rfl]
      exact splitOn_no_sep '/' s (h s (by simp)).2
    | cons x xs =>
      show splitOn '/' (joinSegs (s :: x :: xs)) = s :: x :: xs
      rw [show joinSegs (s :: x :: xs) = s ++ '/' :: joinSegs (x :: xs) from by simp [joinSegs]]
      rw [splitOn_append]
      rw [splitOn_no_sep '/' s (h s (by simp)).2]
      rw [show splitOn '/' (joinSegs (x :: xs)) = splitSlash (joinSegs (x :: xs)) from rfl]
      rw [ih (by simp) (fun t ht => h t (List.mem_cons_of_mem _ ht))]
      simp

theorem dropEmptyDot_append (a b : List GoStr) :
    dropEmptyDot (a ++ b) = dropEmptyDot a ++ dropEmptyDot b := by
  unfold dropEmptyDot
  rw [List.filter_append]

theorem dropEmptyDot_all (segs : List GoStr) (h : ∀ t ∈ segs, t ≠ [] ∧ t ≠ dotS) :
    dropEmptyDot segs = segs := by
  unfold dropEmptyDot
  rw [List.filter_eq_self]
  intro t ht
  simp [(h t ht).1, (h t ht).2, List.isEmpty_iff]

/-! ### Lemmas about the cleaning stack -/

theorem cleanStep_push (r : Bool) (st : List GoStr) (seg : GoStr) (h : seg ≠ dotdotS) :
    cleanStep r st seg = seg :: st := by
  simp [cleanStep, h]

theorem cleanFold_no_dotdot (r : Bool) (X : List GoStr) (h : ∀ t ∈ X, t ≠ dotdotS) :
    ∀ st, X.foldl (cleanStep r) st = X.reverse ++ st := by
  induction X with
  | nil => intro st; simp
  | cons x xs ih =>
    intro st
    rw [List.foldl_cons, cleanStep_push r st x (h x (by simp)),
      ih (fun t ht => h t (List.mem_cons_of_mem _ ht))]
    simp

theorem stackOK_nil (r : Bool) : StackOK r [] :=
  ⟨[], [], rfl, by simp, by simp, fun _ => rfl⟩

theorem stackOK_step (r : Bool) (st : List GoStr) (seg : GoStr) (h : StackOK r st) :
    StackOK r (cleanStep r st seg) := by
  obtain ⟨A, B, hst, hA, hB, hr⟩ := h
  by_cases hseg : seg = dotdotS
  · subst hseg
    subst hst
    rw [cleanStep.eq_def, if_pos rfl]
    cases hA2 : A with
    | nil =>
      subst hA2
      cases hB2 : B with
      | nil =>
        subst hB2
        cases r with
        | true => exact ⟨[], [], by simp, by simp, by simp, fun _ => rfl⟩
        | false =>
          exact ⟨[], [dotdotS], by simp, by simp, by simp, by simp⟩
      | cons b B2 =>
        cases r with
        | true => exact absurd (hr rfl) (by simp [hB2])
        | false =>
          subst hB2
          have hb : b = dotdotS := hB b (by simp)
          simp only [List.nil_append]
          rw [if_neg (by simp), if_pos hb]
          exact ⟨[], dotdotS :: b :: B2, by simp, by simp,
            by intro x hx; rcases List.mem_cons.mp hx with h1 | h2;
               · exact h1
               · rcases List.mem_cons.mp h2 with h3 | h4
                 · exact h3.trans hb
                 · exact hB x (by simp [h4]),
            by simp⟩
    | cons a A2 =>
      subst hA2
      simp only [List.cons_append]
      have ha : a ≠ dotdotS := hA a (by simp)
      cases r with
      | true =>
        rw [if_pos rfl]
        exact ⟨A2, B, rfl, fun t ht => hA t (List.mem_cons_of_mem _ ht), hB, hr⟩
      | false =>
        rw [if_neg (by simp), if_neg ha]
        exact ⟨A2, B, rfl, fun t ht => hA t (List.mem_cons_of_mem _ ht), hB,
          by simp⟩
  · rw [cleanStep_push r st seg hseg]
    exact ⟨seg :: A, B, by rw [hst]; rfl, by
      intro t ht
      rcases List.mem_cons.mp ht with h1 | h2
      · exact h1 ▸ hseg
      · exact hA t h2, hB, hr⟩

theorem stackOK_fold (r : Bool) (X : List GoStr) :
    ∀ st, StackOK r st → StackOK r (X.foldl (cleanStep r) st) := by
  induction X with
  | nil => intro st h; exact h
  | cons x xs ih =>
    intro st h
    rw [List.foldl_cons]
    exact ih _ (stackOK_step r st x h)

theorem cleanStack_stackOK (r : Bool) (p : GoStr) : StackOK r (cleanStack r p) := by
  unfold cleanStack
  exact stackOK_fold r _ [] (stackOK_nil r)

theorem cleanFold_dots (B : List GoStr) (hB : ∀ b ∈ B, b = dotdotS) :
    ∀ st, (∀ x ∈ st, x = dotdotS) → B.foldl (cleanStep false) st = B.reverse ++ st := by
  induction B with
  | nil => intro st hst; simp
  | cons b B2 ih =>
    intro st hst
    have hb : b = dotdotS := hB b (by simp)
    have hstep : cleanStep false st b = b :: st := by
      subst hb
      cases st with
      | nil => simp [cleanStep]
      | cons t rest =>
        rw [cleanStep, if_pos rfl, if_neg (by simp), if_pos (hst t (by simp))]
    rw [List.foldl_cons, hstep,
      ih (fun x hx => hB x (List.mem_cons_of_mem _ hx)) (b :: st)
        (by intro x hx
            rcases List.mem_cons.mp hx with h1 | h2
            · exact h1.trans hb
            · exact hst x h2)]
    simp

theorem cleanFold_replay (r : Bool) (st : List GoStr) (h : StackOK r st) :
    st.reverse.foldl (cleanStep r) [] = st := by
  obtain ⟨A, B, hst, hA, hB, hr⟩ := h
  subst hst
  rw [List.reverse_append, List.foldl_append]
  have hBrev : ∀ b ∈ B.reverse, b = dotdotS := fun b hb => hB b (List.mem_reverse.mp hb)
  have h1 : B.reverse.foldl (cleanStep r) [] = B := by
    cases r with
    | true => rw [hr rfl]; simp
    | false =>
      rw [cleanFold_dots B.reverse hBrev [] (by simp)]
      simp
  rw [h1, cleanFold_no_dotdot r A.reverse (fun t ht => hA t (List.mem_reverse.mp ht)) B]
  simp

theorem cleanStep_mem (r : Bool) (st : List GoStr) (seg t : GoStr)
    (ht : t ∈ cleanStep r st seg) : t = seg ∨ t ∈ st ∨ t = dotdotS := by
  by_cases hs : seg = dotdotS
  · rw [cleanStep.eq_def, if_pos hs] at ht
    cases st with
    | nil =>
      cases r with
      | true => simp at ht
      | false =>
        simp at ht
        exact Or.inr (Or.inr ht)
    | cons a rest =>
      cases r with
      | true =>
        simp at ht
        exact Or.inr (Or.inl (List.mem_cons_of_mem _ ht))
      | false =>
        have ht2 : t ∈ (if (false : Bool) = true then rest
            else if a = dotdotS then seg :: a :: rest else rest) := ht
        rw [if_neg (by simp)] at ht2
        by_cases ha : a = dotdotS
        · rw [if_pos ha] at ht2
          rcases List.mem_cons.mp ht2 with h1 | h2
          · exact Or.inl h1
          · exact Or.inr (Or.inl h2)
        · rw [if_neg ha] at ht2
          exact Or.inr (Or.inl (List.mem_cons_of_mem _ ht2))
  · rw [cleanStep_push r st seg hs] at ht
    rcases List.mem_cons.mp ht with h1 | h2
    · exact Or.inl h1
    · exact Or.inr (Or.inl h2)

theorem cleanFold_mem (r : Bool) :
    ∀ (X st : List GoStr) (t : GoStr), t ∈ X.foldl (cleanStep r) st →
      t ∈ st ∨ t ∈ X ∨ t = dotdotS := by
  intro X
  induction X with
  | nil => intro st t ht; exact Or.inl ht
  | cons x xs ih =>
    intro st t ht
    rw [List.foldl_cons] at ht
    rcases ih _ t ht with h1 | h2 | h3
    · rcases cleanStep_mem r st x t h1 with g1 | g2 | g3
      · exact Or.inr (Or.inl (by simp [g1]))
      · exact Or.inl g2
      · exact Or.inr (Or.inr g3)
    · exact Or.inr (Or.inl (List.mem_cons_of_mem _ h2))
    · exact Or.inr (Or.inr h3)

theorem cleanStack_elem_good (r : Bool) (p : GoStr) (t : GoStr) (ht : t ∈ cleanStack r p) :
    t ≠ [] ∧ '/' ∉ t ∧ t ≠ dotS := by
  rcases cleanFold_mem r _ [] t ht with h1 | h2 | h3
  · simp at h1
  · have hf := List.mem_filter.mp h2
    have hslash : '/' ∉ t := mem_splitOn_no_sep '/' p t hf.1
    have hp := hf.2
    simp only [Bool.and_eq_true, Bool.not_eq_true', decide_eq_true_eq] at hp
    refine ⟨?_, hslash, hp.2⟩
    intro hnil
    subst hnil
    simp at hp
  · subst h3
    refine ⟨by simp [dotdotS], by simp [dotdotS], by simp [dotdotS, dotS]⟩

/-! ### Lemmas about rendering and joining cleaned paths -/

theorem goIsAbs_render (r : Bool) (segs : List GoStr)
    (h : ∀ t ∈ segs, t ≠ [] ∧ '/' ∉ t) : goIsAbs (renderPath r segs) = r := by
  cases r with
  | true => simp [renderPath, goIsAbs]
  | false =>
    cases segs with
    | nil => simp [renderPath, goIsAbs, dotS]
    | cons s rest =>
      obtain ⟨c, s2, rfl⟩ : ∃ c s2, s = c :: s2 := by
        cases s with
        | nil => exact absurd rfl (h [] (by simp)).1
        | cons c s2 => exact ⟨c, s2, rfl⟩
      have hc : c ≠ '/' := by
        intro e
        exact (h (c :: s2) (by simp)).2 (by simp [e])
      cases rest with
      | nil => simp [renderPath, joinSegs, goIsAbs, hc]
      | cons x xs => simp [renderPath, joinSegs, goIsAbs, hc]

theorem segsOf_render (r : Bool) (segs : List GoStr)
    (h : ∀ t ∈ segs, t ≠ [] ∧ '/' ∉ t ∧ t ≠ dotS) :
    segsOf (renderPath r segs) = segs := by
  cases segs with
  | nil => cases r <;> decide
  | cons s rest =>
    have hjoin : segsOf (joinSegs (s :: rest)) = s :: rest := by
      unfold segsOf
      rw [splitSlash_joinSegs (s :: rest) (by simp) (fun t ht => ⟨(h t ht).1, (h t ht).2.1⟩)]
      exact dropEmptyDot_all _ (fun t ht => ⟨(h t ht).1, (h t ht).2.2⟩)
    cases r with
    | false =>
      rw [show renderPath false (s :: rest) = joinSegs (s :: rest) from by simp [renderPath]]
      exact hjoin
    | true =>
      rw [show renderPath true (s :: rest) = '/' :: joinSegs (s :: rest) from by
        simp [renderPath]]
      unfold segsOf at hjoin ⊢
      rw [show splitSlash ('/' :: joinSegs (s :: rest)) =
          [] :: splitSlash (joinSegs (s :: rest)) from by simp [splitSlash, splitOn]]
      rw [show dropEmptyDot ([] :: splitSlash (joinSegs (s :: rest))) =
          dropEmptyDot (splitSlash (joinSegs (s :: rest))) from by simp [dropEmptyDot]]
      exact hjoin

theorem cleanStack_fold_eq (r : Bool) (p : GoStr) :
    cleanStack r p = (segsOf p).foldl (cleanStep r) [] := rfl

theorem goJoin_eq_render (d p : GoStr) (hd : d ≠ []) (hp : GoodRel p) :
    goJoin d p = renderPath (goIsAbs d) ((cleanStack (goIsAbs d) d).reverse ++ segsOf p) := by
  obtain ⟨hne, habs, hsne, hsegs, hrepr⟩ := hp
  have hdE : d.isEmpty = false := by simp [List.isEmpty_iff, hd]
  have hpE : p.isEmpty = false := by simp [List.isEmpty_iff, hne]
  rw [goJoin, if_neg (by simp [hdE]), if_neg (by simp [hdE]), if_neg (by simp [hpE])]
  have habs2 : goIsAbs (d ++ '/' :: p) = goIsAbs d := by
    cases d with
    | nil => exact absurd rfl hd
    | cons c cs => simp [goIsAbs]
  have hstack : cleanStack (goIsAbs d) (d ++ '/' :: p) =
      (segsOf p).reverse ++ cleanStack (goIsAbs d) d := by
    unfold cleanStack
    rw [show splitSlash (d ++ '/' :: p) = splitSlash d ++ splitSlash p from
      splitOn_append '/' d p]
    rw [dropEmptyDot_append, List.foldl_append]
    rw [cleanFold_no_dotdot (goIsAbs d) (dropEmptyDot (splitSlash p))
      (fun t ht => (hsegs t ht).2.2.2.1) _]
    rfl
  rw [goClean, habs2, hstack]
  congr 1
  rw [List.reverse_append, List.reverse_reverse]

theorem goStartsWith_append (x y : GoStr) : goStartsWith (x ++ y) x = true := by
  induction x with
  | nil => cases y <;> simp [goStartsWith]
  | cons c xs ih => simp [goStartsWith, ih]

theorem render_startsWith (r : Bool) (a b : List GoStr)
    (ha : r = false → a ≠ []) :
    goStartsWith (renderPath r (a ++ b)) (renderPath r a) = true := by
  cases b with
  | nil =>
    rw [List.append_nil]
    have h := goStartsWith_append (renderPath r a) []
    rwa [List.append_nil] at h
  | cons b0 bs =>
    cases a with
    | nil =>
      have hr : r = true := by
        cases r with
        | true => rfl
        | false => exact absurd rfl (ha rfl)
      subst hr
      simp [renderPath, joinSegs, goStartsWith]
    | cons a0 as =>
      have hj := joinSegs_append (a0 :: as) (b0 :: bs) (by simp) (by simp)
      cases r with
      | true =>
        rw [show renderPath true ((a0 :: as) ++ b0 :: bs) =
            '/' :: joinSegs ((a0 :: as) ++ b0 :: bs) from by simp [renderPath]]
        rw [show renderPath true (a0 :: as) = '/' :: joinSegs (a0 :: as) from by
          simp [renderPath]]
        rw [hj]
        rw [show ('/' :: (joinSegs (a0 :: as) ++ '/' :: joinSegs (b0 :: bs))) =
            ('/' :: joinSegs (a0 :: as)) ++ '/' :: joinSegs (b0 :: bs) from by simp]
        exact goStartsWith_append _ _
      | false =>
        rw [show renderPath false ((a0 :: as) ++ b0 :: bs) =
            joinSegs ((a0 :: as) ++ b0 :: bs) from by simp [renderPath]]
        rw [show renderPath false (a0 :: as) = joinSegs (a0 :: as) from by
          simp [renderPath]]
        rw [hj]
        exact goStartsWith_append _ _

theorem goClean_join_fix (d p : GoStr) (hd : d ≠ []) (hp : GoodRel p) :
    goClean (goJoin d p) = goJoin d p := by
  obtain ⟨hne, habs, hsne, hsegs, hrepr⟩ := hp
  rw [goJoin_eq_render d p hd ⟨hne, habs, hsne, hsegs, hrepr⟩]
  have hDrev : ∀ t ∈ (cleanStack (goIsAbs d) d).reverse, t ≠ [] ∧ '/' ∉ t ∧ t ≠ dotS :=
    fun t ht => cleanStack_elem_good (goIsAbs d) d t (List.mem_reverse.mp ht)
  have hgood : ∀ t ∈ (cleanStack (goIsAbs d) d).reverse ++ segsOf p,
      t ≠ [] ∧ '/' ∉ t ∧ t ≠ dotS := by
    intro t ht
    rcases List.mem_append.mp ht with h1 | h2
    · exact hDrev t h1
    · exact ⟨(hsegs t h2).1, (hsegs t h2).2.1, (hsegs t h2).2.2.1⟩
  rw [goClean]
  rw [goIsAbs_render _ _ (fun t ht => ⟨(hgood t ht).1, (hgood t ht).2.1⟩)]
  have hstack : cleanStack (goIsAbs d)
      (renderPath (goIsAbs d) ((cleanStack (goIsAbs d) d).reverse ++ segsOf p)) =
      (segsOf p).reverse ++ cleanStack (goIsAbs d) d := by
    rw [cleanStack_fold_eq, segsOf_render _ _ hgood, List.foldl_append]
    rw [cleanFold_replay (goIsAbs d) (cleanStack (goIsAbs d) d)
      (cleanStack_stackOK (goIsAbs d) d)]
    exact cleanFold_no_dotdot (goIsAbs d) (segsOf p)
      (fun t ht => (hsegs t ht).2.2.2.1) _
  rw [hstack]
  congr 1
  rw [List.reverse_append, List.reverse_reverse]

/-! ### Substring lemmas for the rejection checks -/

theorem sw_dot_append_sep (a b : GoStr) :
    goStartsWith (a ++ '/' :: b) ['.'] = goStartsWith a ['.'] := by
  cases a with
  | nil => simp [goStartsWith]
  | cons c as =>
    cases as <;> simp [goStartsWith]

theorem goContains_append_sep (a b : GoStr) :
    goContains (a ++ '/' :: b) dotdotS = (goContains a dotdotS || goContains b dotdotS) := by
  induction a with
  | nil =>
    simp only [List.nil_append, goContains, List.isEmpty_nil]
    rw [show goStartsWith ('/' :: b) dotdotS = false from by simp [goStartsWith, dotdotS]]
    simp [dotdotS]
  | cons c as ih =>
    simp only [List.cons_append, List.append_eq, goContains]
    rw [ih]
    rw [show goStartsWith (c :: (as ++ '/' :: b)) dotdotS = goStartsWith (c :: as) dotdotS from by
      show (c == '.' && goStartsWith (as ++ '/' :: b) ['.']) =
        (c == '.' && goStartsWith as ['.'])
      rw [sw_dot_append_sep]]
    rw [Bool.or_assoc]

theorem goContains_joinSegs_dd (segs : List GoStr)
    (h : ∀ t ∈ segs, goContains t dotdotS = false) :
    goContains (joinSegs segs) dotdotS = false := by
  induction segs with
  | nil => rfl
  | cons s rest ih =>
    cases rest with
    | nil => exact h s (by simp)
    | cons x xs =>
      rw [show joinSegs (s :: x :: xs) = s ++ '/' :: joinSegs (x :: xs) from by
        simp [joinSegs]]
      rw [goContains_append_sep]
      rw [h s (by simp), ih (fun t ht => h t (List.mem_cons_of_mem _ ht))]
      rfl

theorem mem_joinSegs (c : Char) (segs : List GoStr) (hc : c ∈ joinSegs segs) :
    c = '/' ∨ ∃ t ∈ segs, c ∈ t := by
  induction segs with
  | nil => simp [joinSegs] at hc
  | cons s rest ih =>
    cases rest with
    | nil => exact Or.inr ⟨s, by simp, hc⟩
    | cons x xs =>
      rw [show joinSegs (s :: x :: xs) = s ++ '/' :: joinSegs (x :: xs) from by
        simp [joinSegs]] at hc
      rcases List.mem_append.mp hc with h1 | h2
      · exact Or.inr ⟨s, by simp, h1⟩
      · rcases List.mem_cons.mp h2 with h3 | h4
        · exact Or.inl h3
        · rcases ih h4 with h5 | ⟨t, ht, hin⟩
          · exact Or.inl h5
          · exact Or.inr ⟨t, List.mem_cons_of_mem _ ht, hin⟩

/-! ### The path safety check on well-formed inputs -/

theorem goClean_nil : goClean [] = dotS := rfl

theorem isPathSafe_good (p d : GoStr) (hp : GoodRel p) (hd : goClean d ≠ dotS) :
    isPathSafe p d = true := by
  obtain ⟨hne, habs, hsne, hsegs, hrepr⟩ := hp
  have hdne : d ≠ [] := by
    intro h
    exact hd (h ▸ goClean_nil)
  have hnodd : goContains p dotdotS = false := by
    rw [hrepr]
    exact goContains_joinSegs_dd _ (fun t ht => (hsegs t ht).2.2.2.2.1)
  have hnul : nulChar ∉ p := by
    rw [hrepr]
    intro hm
    rcases mem_joinSegs _ _ hm with h | ⟨t, ht, hin⟩
    · exact absurd h (by decide)
    · exact (hsegs t ht).2.2.2.2.2 hin
  rw [isPathSafe, if_neg (by simp [List.isEmpty_iff, hne]), if_neg (by simp [hnodd]),
    if_neg (by simp [habs]), if_neg (by simp [hnul])]
  rw [goClean_join_fix d p hdne ⟨hne, habs, hsne, hsegs, hrepr⟩]
  rw [goJoin_eq_render d p hdne ⟨hne, habs, hsne, hsegs, hrepr⟩]
  rw [show goClean d =
      renderPath (goIsAbs d) ((cleanStack (goIsAbs d) d).reverse) from rfl]
  apply render_startsWith
  intro hr hnil
  apply hd
  rw [goClean, hnil, hr]
  simp [renderPath]

/-! ### Claim C1 -/

/-- Counterexample to C1 as stated: the plain relative path
`"dir/subdir/file.txt"` is rejected when the destination directory is
`"."`, because the cleaned joined path does not start with `"."`. -/
theorem C1_counterexample : isPathSafe "dir/subdir/file.txt".data ".".data = false := by
  decide

/-- C1 as amended: for every destination directory, the path check
rejects `"../etc/passwd"`, the absolute `"/etc/passwd"`, the empty
path, and `"foo/../../etc/passwd"`; and it accepts the plain relative
path `"dir/subdir/file.txt"` for every destination directory whose
lexically cleaned form is not `"."` (in particular for every absolute
destination, which is all the program ever passes). -/
theorem C1_amended (d : GoStr) :
    isPathSafe "../etc/passwd".data d = false ∧
    isPathSafe "/etc/passwd".data d = false ∧
    isPathSafe "".data d = false ∧
    isPathSafe "foo/../../etc/passwd".data d = false ∧
    (goClean d ≠ dotS → isPathSafe "dir/subdir/file.txt".data d = true) := by
  refine ⟨?_, ?_, ?_, ?_, ?_⟩
  · rw [isPathSafe, if_neg (by decide), if_pos (by decide)]
  · rw [isPathSafe, if_neg (by decide), if_neg (by decide), if_pos (by decide)]
  · rfl
  · rw [isPathSafe, if_neg (by decide), if_pos (by decide)]
  · intro hd
    exact isPathSafe_good _ d (by decide) hd

/-- Witness for C1 at the concrete destination `"/tmp/test"`. -/
theorem C1_witness :
    isPathSafe "dir/subdir/file.txt".data "/tmp/test".data = true :=
  (C1_amended "/tmp/test".data).2.2.2.2 (by decide)

/-! ### Claim C7 -/

theorem createSums_fold (fs : List WalkItem) :
    ∀ acc : List Entry,
      fs.foldl
        (fun acc it =>
          if it.isDir then acc
          else acc ++ [⟨CalculateCRC32 ⟨it.path, it.content⟩, it.path⟩])
        acc =
      acc ++ (fs.filter (fun it => !it.isDir)).map
        (fun it => ⟨CalculateCRC32 ⟨it.path, it.content⟩, it.path⟩) := by
  induction fs with
  | nil => intro acc; simp
  | cons it rest ih =>
    intro acc
    rw [List.foldl_cons]
    by_cases h : it.isDir
    · rw [if_pos h, ih, List.filter_cons_of_neg (by simp [h])]
    · rw [if_neg h, ih, List.filter_cons_of_pos (by simp [h])]
      simp

/-- C7: generation records only regular files — no directory appears
in the record list, the records are exactly the walked regular files
in walk order carrying their paths relative to the walked root, and
the manifest is one line per record in that order. -/
theorem C7_generate_regular_files_only (fs : List WalkItem) :
    (CreateCRC32Sums fs).1 = (fs.filter (fun it => !it.isDir)).map
      (fun it => ⟨CalculateCRC32 ⟨it.path, it.content⟩, it.path⟩) ∧
    (∀ e ∈ (CreateCRC32Sums fs).1, ∃ it ∈ fs, it.isDir = false ∧ e.path = it.path) ∧
    (CreateCRC32Sums fs).2 = ((CreateCRC32Sums fs).1.map sumsLine).flatten := by
  have h1 : (CreateCRC32Sums fs).1 = (fs.filter (fun it => !it.isDir)).map
      (fun it => ⟨CalculateCRC32 ⟨it.path, it.content⟩, it.path⟩) := by
    show fs.foldl _ [] = _
    rw [createSums_fold fs []]
    simp
  refine ⟨h1, ?_, rfl⟩
  intro e he
  rw [h1] at he
  obtain ⟨it, hit, rfl⟩ := List.mem_map.mp he
  have hf := List.mem_filter.mp hit
  exact ⟨it, hf.1, by simpa using hf.2, rfl⟩

/-! ### Claim C6 -/

theorem verifyStep_classify (fs : List WalkItem) (pf : List GoStr × List GoStr)
    (line : GoStr) :
    verifyStep fs pf line =
      match classifyLine fs line with
      | none => pf
      | some (true, q) => (pf.1 ++ [q], pf.2)
      | some (false, q) => (pf.1, pf.2 ++ [q]) := by
  unfold verifyStep classifyLine
  by_cases h0 : line.isEmpty
  · simp [h0]
  · simp only [h0, Bool.false_eq_true, if_false]
    cases h1 : splitN2 line with
    | none => simp
    | some sq =>
      obtain ⟨sf, q⟩ := sq
      cases h2 : parseHex32 sf with
      | none => simp [h2]
      | some v =>
        cases h3 : lookupContent fs q with
        | none => simp [h2, h3]
        | some c =>
          by_cases h4 : CalculateCRC32 ⟨q, c⟩ = v
          · simp [h2, h3, h4]
          · simp [h2, h3, h4]

theorem verify_foldl (fs : List WalkItem) (lines : List GoStr) :
    ∀ pf : List GoStr × List GoStr,
      lines.foldl (verifyStep fs) pf =
        (pf.1 ++ lines.filterMap (passOf fs), pf.2 ++ lines.filterMap (failOf fs)) := by
  induction lines with
  | nil => intro pf; simp
  | cons l ls ih =>
    intro pf
    rw [List.foldl_cons, verifyStep_classify, ih]
    cases h : classifyLine fs l with
    | none => simp [List.filterMap_cons, passOf, failOf, h]
    | some bq =>
      obtain ⟨b, q⟩ := bq
      cases b with
      | true => simp [List.filterMap_cons, passOf, failOf, h]
      | false => simp [List.filterMap_cons, passOf, failOf, h]

set_option maxRecDepth 100000 in
/-- Counterexample to C6 as stated: the checksum field `"3610a686x"`
is not valid hexadecimal, yet the line is classified as passed (the
scanner reads the leading hex digits and ignores the garbage, and the
parsed value matches the digest), not as failed. -/
theorem C6_counterexample :
    ("3610a686x".data.all isHexDigitC = false) ∧
    VerifyCRC32Sums "3610a686x  f\n".data
      [⟨"f".data, false, [104, 101, 108, 108, 111]⟩] = (["f".data], []) := by
  exact ⟨by decide, by decide⟩

/-- C6 as amended: verification classifies every manifest line without
raising — the result is exactly the per-line classification in scan
order, so a non-empty failed list is a normal return value; a line
without the two-space separator is skipped; a line whose checksum
field does not scan as a 32-bit hexadecimal number (no leading hex
digits, or a hex value out of 32-bit range) is failed under the
record's path, while a field whose leading hex digits scan is judged
by digest comparison even if trailing garbage follows; a recomputation
read error and a digest mismatch are classified failed identically,
with nothing distinguishing the two. -/
theorem C6_amended :
    (∀ (m : GoStr) (fs : List WalkItem),
      VerifyCRC32Sums m fs =
        ((scanLines m).filterMap (passOf fs), (scanLines m).filterMap (failOf fs))) ∧
    (∀ (fs : List WalkItem) (line : GoStr), splitN2 line = none →
      classifyLine fs line = none) ∧
    (∀ (fs : List WalkItem) (line sf q : GoStr), splitN2 line = some (sf, q) →
      parseHex32 sf = none → classifyLine fs line = some (false, q)) ∧
    (∀ (fs : List WalkItem) (line sf q : GoStr) (v : Nat),
      splitN2 line = some (sf, q) → parseHex32 sf = some v →
      lookupContent fs q = none → classifyLine fs line = some (false, q)) ∧
    (∀ (fs : List WalkItem) (line sf q : GoStr) (v : Nat) (c : List Nat),
      splitN2 line = some (sf, q) → parseHex32 sf = some v →
      lookupContent fs q = some c → CalculateCRC32 ⟨q, c⟩ ≠ v →
      classifyLine fs line = some (false, q)) := by
  have hne : ∀ (line : GoStr) (sf q : GoStr), splitN2 line = some (sf, q) →
      line.isEmpty = false := by
    intro line sf q h
    cases line with
    | nil => simp [splitN2] at h
    | cons c rest => rfl
  refine ⟨?_, ?_, ?_, ?_, ?_⟩
  · intro m fs
    unfold VerifyCRC32Sums
    rw [verify_foldl fs (scanLines m) ([], [])]
    simp
  · intro fs line h
    unfold classifyLine
    by_cases h0 : line.isEmpty
    · simp [h0]
    · simp [h0, h]
  · intro fs line sf q h1 h2
    unfold classifyLine
    rw [if_neg (by simp [hne line sf q h1])]
    simp [h1, h2]
  · intro fs line sf q v h1 h2 h3
    unfold classifyLine
    rw [if_neg (by simp [hne line sf q h1])]
    simp [h1, h2, h3]
  · intro fs line sf q v c h1 h2 h3 h4
    unfold classifyLine
    rw [if_neg (by simp [hne line sf q h1])]
    simp [h1, h2, h3, h4]

/-- Witness for C6 at concrete lines: a line without the separator is
skipped, a non-hex field is failed under the record's path, a missing
file is failed, and a mismatching digest is failed. -/
theorem C6_witness :
    classifyLine [] "justoneline".data = none ∧
    classifyLine [] "zz  f".data = some (false, "f".data) ∧
    classifyLine [] "0a  f".data = some (false, "f".data) ∧
    classifyLine [⟨"f".data, false, [104]⟩] "0a  f".data = some (false, "f".data) :=
  ⟨C6_amended.2.1 [] "justoneline".data (by decide),
   C6_amended.2.2.1 [] "zz  f".data "zz".data "f".data (by decide) (by decide),
   C6_amended.2.2.2.1 [] "0a  f".data "0a".data "f".data 10 (by decide) (by decide)
     (by decide),
   C6_amended.2.2.2.2 [⟨"f".data, false, [104]⟩] "0a  f".data "0a".data "f".data 10
     [104] (by decide) (by decide) (by decide) (by decide)⟩

/-! ### Hexadecimal formatting and scanning round-trip -/

theorem hexVal_hexDigitChar (d : Nat) (hd : d < 16) : hexVal (hexDigitChar d) = d := by
  have h : ∀ m, m < 16 → hexVal (hexDigitChar m) = m := by decide
  exact h d hd

theorem hexDigitChar_props (d : Nat) (hd : d < 16) :
    isHexDigitC (hexDigitChar d) = true ∧ hexDigitChar d ≠ ' ' ∧
    hexDigitChar d ≠ '\n' ∧ hexDigitChar d ≠ '\r' ∧ isSpaceC (hexDigitChar d) = false := by
  have h : ∀ m, m < 16 → isHexDigitC (hexDigitChar m) = true ∧ hexDigitChar m ≠ ' ' ∧
      hexDigitChar m ≠ '\n' ∧ hexDigitChar m ≠ '\r' ∧ isSpaceC (hexDigitChar m) = false := by
    decide
  exact h d hd

theorem toHexAux_mem (k n : Nat) :
    ∀ c ∈ toHexAux k n, ∃ d, d < 16 ∧ c = hexDigitChar d := by
  induction k generalizing n with
  | zero => intro c hc; simp [toHexAux] at hc
  | succ k ih =>
    intro c hc
    rw [toHexAux] at hc
    rcases List.mem_append.mp hc with h1 | h2
    · exact ih (n / 16) c h1
    · exact ⟨n % 16, Nat.mod_lt n (by omega), by simpa using h2⟩

theorem toHexAux_length (k n : Nat) : (toHexAux k n).length = k := by
  induction k generalizing n with
  | zero => rfl
  | succ k ih => simp [toHexAux, ih]

theorem toHexAux_foldl (k : Nat) :
    ∀ n, n < 16 ^ k → (toHexAux k n).foldl (fun a c => a * 16 + hexVal c) 0 = n := by
  induction k with
  | zero =>
    intro n hn
    interval_cases n
    rfl
  | succ k ih =>
    intro n hn
    rw [toHexAux, List.foldl_append]
    rw [ih (n / 16) (by
      rw [Nat.div_lt_iff_lt_mul (by omega)]
      calc n < 16 ^ (k + 1) := hn
        _ = 16 ^ k * 16 := by ring)]
    simp only [List.foldl_cons, List.foldl_nil]
    rw [hexVal_hexDigitChar (n % 16) (Nat.mod_lt n (by omega))]
    omega

theorem dropWhile_none {p : Char → Bool} (l : GoStr) (h : ∀ c ∈ l, p c = false) :
    l.dropWhile p = l := by
  cases l with
  | nil => rfl
  | cons c rest => simp [List.dropWhile_cons, h c (by simp)]

theorem takeWhile_all {p : Char → Bool} (l : GoStr) (h : ∀ c ∈ l, p c = true) :
    l.takeWhile p = l := by
  induction l with
  | nil => rfl
  | cons c rest ih =>
    simp [List.takeWhile_cons, h c (by simp), ih (fun x hx => h x (by simp [hx]))]

theorem parseHex32_toHex8 (n : Nat) (h : n < 2 ^ 32) : parseHex32 (toHex8 n) = some n := by
  have hmem : ∀ c ∈ toHex8 n, ∃ d, d < 16 ∧ c = hexDigitChar d := toHexAux_mem 8 n
  have hdrop : (toHex8 n).dropWhile isSpaceC = toHex8 n := by
    apply dropWhile_none
    intro c hc
    obtain ⟨d, hd, rfl⟩ := hmem c hc
    exact (hexDigitChar_props d hd).2.2.2.2
  have htake : (toHex8 n).takeWhile isHexDigitC = toHex8 n := by
    apply takeWhile_all
    intro c hc
    obtain ⟨d, hd, rfl⟩ := hmem c hc
    exact (hexDigitChar_props d hd).1
  have hfold : (toHex8 n).foldl (fun a c => a * 16 + hexVal c) 0 = n := by
    apply toHexAux_foldl 8 n
    calc n < 2 ^ 32 := h
      _ = 16 ^ 8 := by norm_num
  have hne8 : toHex8 n ≠ [] := by
    intro hnil
    have hlen := toHexAux_length 8 n
    rw [show toHexAux 8 n = toHex8 n from rfl, hnil] at hlen
    simp at hlen
  have hne : (toHex8 n).isEmpty = false := by
    simp [List.isEmpty_iff, hne8]
  rw [parseHex32]
  simp only [hdrop, htake, hne, Bool.false_eq_true, if_false, hfold]
  rw [if_pos h]

/-! ### The digest is a 32-bit value -/

theorem xor_lt_32 (a b : Nat) (ha : a < 2 ^ 32) (hb : b < 2 ^ 32) : a ^^^ b < 2 ^ 32 :=
  Nat.xor_lt_two_pow ha hb

theorem crc32Round_lt (c : Nat) (h : c < 2 ^ 32) : crc32Round c < 2 ^ 32 := by
  rw [crc32Round]
  split
  · exact xor_lt_32 _ _ (by omega) (by norm_num [crc32Poly])
  · omega

theorem crc32TableEntry_lt (i : Nat) (h : i < 2 ^ 32) : crc32TableEntry i < 2 ^ 32 := by
  unfold crc32TableEntry
  exact crc32Round_lt _ (crc32Round_lt _ (crc32Round_lt _ (crc32Round_lt _
    (crc32Round_lt _ (crc32Round_lt _ (crc32Round_lt _ (crc32Round_lt _ h)))))))

theorem crc32UpdateByte_lt (crc b : Nat) (h : crc < 2 ^ 32) :
    crc32UpdateByte crc b < 2 ^ 32 := by
  rw [crc32UpdateByte]
  apply xor_lt_32
  · exact crc32TableEntry_lt _ (by
      have : (crc ^^^ b) % 256 < 256 := Nat.mod_lt _ (by omega)
      omega)
  · omega

theorem foldl_crc32UpdateByte_lt (p : List Nat) :
    ∀ s, s < 2 ^ 32 → p.foldl crc32UpdateByte s < 2 ^ 32 := by
  induction p with
  | nil => intro s hs; exact hs
  | cons x xs ih =>
    intro s hs
    rw [List.foldl_cons]
    exact ih _ (crc32UpdateByte_lt s x hs)

theorem crc32update_lt (c : Nat) (p : List Nat) (h : c < 2 ^ 32) :
    crc32update c p < 2 ^ 32 := by
  rw [crc32update]
  exact xor_lt_32 _ _
    (foldl_crc32UpdateByte_lt p _ (xor_lt_32 _ _ h (by norm_num))) (by norm_num)

theorem CalculateCRC32Bytes_lt (data : List Nat) : CalculateCRC32Bytes data < 2 ^ 32 :=
  crc32update_lt 0 data (by norm_num)

/-! ### The manifest text round-trips through the scanner -/

theorem splitN2_hex_line (h p : GoStr) (hh : ∀ c ∈ h, c ≠ ' ') :
    splitN2 (h ++ ' ' :: ' ' :: p) = some (h, p) := by
  induction h with
  | nil => rfl
  | cons c h2 ih =>
    have hc : c ≠ ' ' := hh c (by simp)
    rw [List.cons_append, splitN2, if_neg (by simp [hc])]
    rw [ih (fun x hx => hh x (by simp [hx]))]
    rfl

theorem splitOn_nl_flatten (bodies : List GoStr) (h : ∀ b ∈ bodies, '\n' ∉ b) :
    splitOn '\n' ((bodies.map (fun b => b ++ ['\n'])).flatten) = bodies ++ [[]] := by
  induction bodies with
  | nil => rfl
  | cons b rest ih =>
    rw [List.map_cons, List.flatten_cons]
    rw [show (b ++ ['\n']) ++ (rest.map (fun x => x ++ ['\n'])).flatten =
        b ++ '\n' :: (rest.map (fun x => x ++ ['\n'])).flatten from by simp]
    rw [splitOn_append, splitOn_no_sep '\n' b (h b (by simp))]
    rw [ih (fun x hx => h x (by simp [hx]))]
    simp

theorem scanLines_flatten (bodies : List GoStr)
    (h : ∀ b ∈ bodies, '\n' ∉ b ∧ '\r' ∉ b) :
    scanLines ((bodies.map (fun b => b ++ ['\n'])).flatten) = bodies := by
  rw [scanLines]
  rw [splitOn_nl_flatten bodies (fun b hb => (h b hb).1)]
  rw [if_pos (by simp)]
  rw [List.dropLast_concat]
  have : ∀ b ∈ bodies, dropCR b = b := by
    intro b hb
    rw [dropCR, if_neg]
    intro hlast
    exact (h b hb).2 (List.mem_of_mem_getLast? hlast)
  calc bodies.map dropCR = bodies.map id := List.map_congr_left this
    _ = bodies := List.map_id bodies

/-! ### Looking files up in the walked tree -/

theorem lookupContent_of_mem (fs : List WalkItem) (it : WalkItem) (hit : it ∈ fs)
    (hdir : it.isDir = false) (hnd : (fs.map (fun x => x.path)).Nodup) :
    lookupContent fs it.path = some it.content := by
  induction fs with
  | nil => simp at hit
  | cons x rest ih =>
    rcases List.mem_cons.mp hit with h1 | h2
    · subst h1
      rw [lookupContent]
      simp [List.find?_cons_of_pos, hdir]
    · have hxne : (x.path == it.path) = false := by
        have hx : x.path ∉ rest.map (fun y => y.path) := (List.nodup_cons.mp hnd).1
        have hin : it.path ∈ rest.map (fun y => y.path) :=
          List.mem_map_of_mem _ h2
        simp only [beq_eq_false_iff_ne, ne_eq]
        intro he
        exact hx (he ▸ hin)
      have hrec := ih h2 (List.nodup_cons.mp hnd).2
      rw [lookupContent] at hrec ⊢
      rw [List.find?_cons_of_neg _ (by simp [hxne])]
      exact hrec

theorem modifyFS_map_path (fs : List WalkItem) (p : GoStr) (newc : List Nat) :
    (modifyFS fs p newc).map (fun x => x.path) = fs.map (fun x => x.path) := by
  unfold modifyFS
  rw [List.map_map]
  apply List.map_congr_left
  intro it _
  by_cases h : it.path = p <;> simp [h]

theorem modifyFS_mem (fs : List WalkItem) (p : GoStr) (newc : List Nat)
    (it : WalkItem) (hit : it ∈ fs) :
    (if it.path = p then (⟨it.path, it.isDir, newc⟩ : WalkItem) else it) ∈
      modifyFS fs p newc := by
  unfold modifyFS
  exact List.mem_map_of_mem _ hit

/-! ### Classifying the lines of a freshly generated manifest -/

theorem sumsLine_eq (e : Entry) : sumsLine e = bodyOf e ++ ['\n'] := by
  simp [sumsLine, bodyOf]

theorem toHex8_no_space (n : Nat) : ∀ c ∈ toHex8 n, c ≠ ' ' := by
  intro c hc
  obtain ⟨d, hd, rfl⟩ := toHexAux_mem 8 n c hc
  exact (hexDigitChar_props d hd).2.1

theorem bodyOf_not_empty (e : Entry) : (bodyOf e).isEmpty = false := by
  rw [bodyOf]
  generalize toHex8 e.checksum = t
  cases t <;> rfl

theorem classifyLine_bodyOf (fs2 : List WalkItem) (e : Entry) (hlt : e.checksum < 2 ^ 32) :
    classifyLine fs2 (bodyOf e) =
      match lookupContent fs2 e.path with
      | none => some (false, e.path)
      | some c => some (decide (CalculateCRC32 ⟨e.path, c⟩ = e.checksum), e.path) := by
  have hsplit : splitN2 (bodyOf e) = some (toHex8 e.checksum, e.path) :=
    splitN2_hex_line _ _ (toHex8_no_space _)
  unfold classifyLine
  rw [if_neg (by simp [bodyOf_not_empty e])]
  simp only [hsplit, parseHex32_toHex8 _ hlt]

theorem classify_flag_filterMap (fs2 : List WalkItem) (flag : Entry → Bool)
    (es : List Entry)
    (h : ∀ e ∈ es, classifyLine fs2 (bodyOf e) = some (flag e, e.path)) :
    (es.map bodyOf).filterMap (passOf fs2) = (es.filter flag).map (fun e => e.path) ∧
    (es.map bodyOf).filterMap (failOf fs2) =
      (es.filter (fun e => !flag e)).map (fun e => e.path) := by
  induction es with
  | nil => simp
  | cons e rest ih =>
    have he := h e (by simp)
    have ihr := ih (fun x hx => h x (by simp [hx]))
    rw [List.map_cons, List.filterMap_cons, List.filterMap_cons]
    cases hf : flag e with
    | true =>
      rw [hf] at he
      rw [List.filter_cons_of_pos (by simp [hf]), List.filter_cons_of_neg (by simp [hf])]
      simp [passOf, failOf, he, ihr.1, ihr.2]
    | false =>
      rw [hf] at he
      rw [List.filter_cons_of_neg (by simp [hf]), List.filter_cons_of_pos (by simp [hf])]
      simp [passOf, failOf, he, ihr.1, ihr.2]

theorem filter_path_eq (es : List Entry) (p : GoStr)
    (hnd : (es.map (fun e => e.path)).Nodup)
    (hp : p ∈ es.map (fun e => e.path)) :
    (es.filter (fun e => decide (e.path = p))).map (fun e => e.path) = [p] := by
  induction es with
  | nil => simp at hp
  | cons e rest ih =>
    by_cases hep : e.path = p
    · rw [List.filter_cons_of_pos (by simp [hep])]
      rw [List.map_cons, hep]
      have hnotin : ∀ x ∈ rest, ¬x.path = p := by
        intro x hx he2
        have h1 : e.path ∉ rest.map (fun y => y.path) := (List.nodup_cons.mp hnd).1
        exact h1 (by
          rw [hep, ← he2]
          exact List.mem_map_of_mem _ hx)
      rw [List.filter_eq_nil_iff.mpr (by intro x hx; simp [hnotin x hx])]
      rfl
    · rw [List.filter_cons_of_neg (by simp [hep])]
      apply ih (List.nodup_cons.mp hnd).2
      rcases List.mem_cons.mp hp with h1 | h2
      · exact absurd h1.symm hep
      · exact h2

theorem lookupContent_some_mem (fs : List WalkItem) (p : GoStr) (c : List Nat)
    (h : lookupContent fs p = some c) :
    ∃ it ∈ fs, it.path = p ∧ it.isDir = false ∧ it.content = c := by
  induction fs with
  | nil => simp [lookupContent] at h
  | cons x rest ih =>
    rw [lookupContent] at h
    cases hx : (x.path == p) with
    | true =>
      rw [List.find?_cons_of_pos _ (by simp [hx])] at h
      cases hd : x.isDir with
      | true => simp [hd] at h
      | false =>
        simp only [hd, Bool.false_eq_true, if_false, Option.some.injEq] at h
        exact ⟨x, by simp, by simpa using hx, hd, h⟩
    | false =>
      rw [List.find?_cons_of_neg _ (by simp [hx])] at h
      obtain ⟨it, hit, h1, h2, h3⟩ := ih (by rw [lookupContent]; exact h)
      exact ⟨it, List.mem_cons_of_mem _ hit, h1, h2, h3⟩

theorem createSums_entries (fs : List WalkItem) :
    (CreateCRC32Sums fs).1 = (fs.filter (fun it => !it.isDir)).map
      (fun it => ⟨CalculateCRC32 ⟨it.path, it.content⟩, it.path⟩) := by
  show fs.foldl _ [] = _
  rw [createSums_fold fs []]
  simp

theorem entry_checksum_lt (fs : List WalkItem) (e : Entry)
    (he : e ∈ (CreateCRC32Sums fs).1) : e.checksum < 2 ^ 32 := by
  rw [createSums_entries] at he
  obtain ⟨it, _, rfl⟩ := List.mem_map.mp he
  show CalculateCRC32 ⟨it.path, it.content⟩ < 2 ^ 32
  rw [CalculateCRC32_eq_bytes]
  exact CalculateCRC32Bytes_lt it.content

theorem entries_path_nodup (fs : List WalkItem)
    (hnd : (fs.map (fun it => it.path)).Nodup) :
    (((CreateCRC32Sums fs).1).map (fun e => e.path)).Nodup := by
  rw [createSums_entries, List.map_map]
  have hsub : ((fs.filter (fun it => !it.isDir)).map (fun it => it.path)).Sublist
      (fs.map (fun it => it.path)) := (List.filter_sublist fs).map _
  exact (hnd.sublist hsub)

theorem scanLines_manifest (fs : List WalkItem)
    (hch : ∀ it ∈ fs, '\n' ∉ it.path ∧ '\r' ∉ it.path) :
    scanLines (CreateCRC32Sums fs).2 = ((CreateCRC32Sums fs).1).map bodyOf := by
  have hman : (CreateCRC32Sums fs).2 =
      ((((CreateCRC32Sums fs).1).map bodyOf).map (fun b => b ++ ['\n'])).flatten := by
    show (((CreateCRC32Sums fs).1).map sumsLine).flatten = _
    rw [List.map_map]
    congr 1
  rw [hman]
  apply scanLines_flatten
  intro b hb
  obtain ⟨e, he, rfl⟩ := List.mem_map.mp hb
  have hpath : '\n' ∉ e.path ∧ '\r' ∉ e.path := by
    rw [createSums_entries] at he
    obtain ⟨it, hit, rfl⟩ := List.mem_map.mp he
    exact hch it (List.mem_filter.mp hit).1
  have hhex : ∀ c ∈ toHex8 e.checksum, c ≠ '\n' ∧ c ≠ '\r' := by
    intro c hc
    obtain ⟨d, hd, rfl⟩ := toHexAux_mem 8 e.checksum c hc
    exact ⟨(hexDigitChar_props d hd).2.2.1, (hexDigitChar_props d hd).2.2.2.1⟩
  constructor
  · intro hmem
    rw [bodyOf] at hmem
    rcases List.mem_append.mp hmem with h1 | h2
    · exact (hhex _ h1).1 rfl
    · rcases List.mem_cons.mp h2 with h3 | h4
      · exact absurd h3 (by decide)
      · rcases List.mem_cons.mp h4 with h5 | h6
        · exact absurd h5 (by decide)
        · exact hpath.1 h6
  · intro hmem
    rw [bodyOf] at hmem
    rcases List.mem_append.mp hmem with h1 | h2
    · exact (hhex _ h1).2 rfl
    · rcases List.mem_cons.mp h2 with h3 | h4
      · exact absurd h3 (by decide)
      · rcases List.mem_cons.mp h4 with h5 | h6
        · exact absurd h5 (by decide)
        · exact hpath.2 h6

/-! ### Claim C5 -/

set_option maxRecDepth 1000000 in
/-- Counterexample to C5 as stated: first, replacing the single file's
content `"plumless"` by the different bytes `"buckeroo"` — a CRC32
collision — leaves the file in `passed` and `failed` empty, so a
modified file need not appear in `failed`; second, a file whose name
contains a newline makes `Verify` after `Generate` report a failure
with nothing modified at all. -/
theorem C5_counterexample :
    ("plumless".data.map Char.toNat ≠ "buckeroo".data.map Char.toNat) ∧
    VerifyCRC32Sums
      (CreateCRC32Sums [⟨"f".data, false, "plumless".data.map Char.toNat⟩]).2
      [⟨"f".data, false, "buckeroo".data.map Char.toNat⟩] = (["f".data], []) ∧
    VerifyCRC32Sums
      (CreateCRC32Sums [⟨['a', '\n', 'b'], false, [49]⟩]).2
      [⟨['a', '\n', 'b'], false, [49]⟩] = ([], ["a".data]) := by
  exact ⟨by decide, by decide, by decide⟩

/-- C5 as amended: for a directory whose (distinct) file paths contain
no newline or carriage return, verifying the freshly generated
manifest passes every file and fails none; and after modifying the
content bytes of exactly one listed file in a way that changes its
CRC32 digest, exactly that file's path lands in `failed` while every
other listed path stays in `passed`, in manifest order. -/
theorem C5_amended (fs : List WalkItem) (hfs : GoodManifestFS fs) :
    VerifyCRC32Sums (CreateCRC32Sums fs).2 fs = (filePaths fs, []) ∧
    (∀ (p : GoStr) (oldc newc : List Nat),
      lookupContent fs p = some oldc →
      CalculateCRC32Bytes newc ≠ CalculateCRC32Bytes oldc →
      VerifyCRC32Sums (CreateCRC32Sums fs).2 (modifyFS fs p newc) =
        ((filePaths fs).filter (fun q => decide (q ≠ p)), [p])) := by
  obtain ⟨hnd, hch⟩ := hfs
  have hscan := scanLines_manifest fs hch
  have hent := createSums_entries fs
  have hnd2 := entries_path_nodup fs hnd
  have hpaths : (((CreateCRC32Sums fs).1).map (fun e => e.path)) = filePaths fs := by
    rw [hent, List.map_map]
    rfl
  constructor
  · have hflag : ∀ e ∈ (CreateCRC32Sums fs).1,
        classifyLine fs (bodyOf e) = some ((fun _ => true) e, e.path) := by
      intro e he
      rw [classifyLine_bodyOf fs e (entry_checksum_lt fs e he)]
      rw [hent] at he
      obtain ⟨it, hit, rfl⟩ := List.mem_map.mp he
      have hif := List.mem_filter.mp hit
      have hdir : it.isDir = false := by simpa using hif.2
      rw [show (⟨CalculateCRC32 ⟨it.path, it.content⟩, it.path⟩ : Entry).path = it.path
        from rfl]
      rw [lookupContent_of_mem fs it hif.1 hdir hnd]
      have hcrc : CalculateCRC32 ⟨it.path, it.content⟩ =
          (⟨CalculateCRC32 ⟨it.path, it.content⟩, it.path⟩ : Entry).checksum := rfl
      simp [← hcrc]
    have hcl := classify_flag_filterMap fs (fun _ => true) (CreateCRC32Sums fs).1 hflag
    rw [VerifyCRC32Sums, verify_foldl fs _ ([], []), hscan]
    rw [hcl.1, hcl.2]
    simp [hpaths]
  · intro p oldc newc hold hneq
    obtain ⟨itp, hitp, hitp_path, hitp_dir, hitp_content⟩ :=
      lookupContent_some_mem fs p oldc hold
    have hnd3 : ((modifyFS fs p newc).map (fun x => x.path)).Nodup := by
      rw [modifyFS_map_path]
      exact hnd
    have hflag : ∀ e ∈ (CreateCRC32Sums fs).1,
        classifyLine (modifyFS fs p newc) (bodyOf e) =
          some ((fun e => decide (¬e.path = p)) e, e.path) := by
      intro e he
      rw [classifyLine_bodyOf _ e (entry_checksum_lt fs e he)]
      rw [hent] at he
      obtain ⟨it, hit, rfl⟩ := List.mem_map.mp he
      have hif := List.mem_filter.mp hit
      have hdir : it.isDir = false := by simpa using hif.2
      have hmemmod := modifyFS_mem fs p newc it hif.1
      by_cases hip : it.path = p
      · rw [if_pos hip] at hmemmod
        have hlook : lookupContent (modifyFS fs p newc)
            (⟨it.path, it.isDir, newc⟩ : WalkItem).path =
            some (⟨it.path, it.isDir, newc⟩ : WalkItem).content :=
          lookupContent_of_mem _ _ hmemmod hdir hnd3
        rw [show (⟨CalculateCRC32 ⟨it.path, it.content⟩, it.path⟩ : Entry).path = it.path
          from rfl]
        rw [show (⟨it.path, it.isDir, newc⟩ : WalkItem).path = it.path from rfl] at hlook
        rw [hlook]
        have holdc : oldc = it.content := by
          have h2 : lookupContent fs it.path = some it.content :=
            lookupContent_of_mem fs it hif.1 hdir hnd
          rw [hip] at h2
          rw [hold] at h2
          exact Option.some.inj h2
        have hne2 : CalculateCRC32 ⟨it.path, newc⟩ ≠ CalculateCRC32 ⟨it.path, it.content⟩ := by
          rw [CalculateCRC32_eq_bytes, CalculateCRC32_eq_bytes]
          rw [← holdc]
          exact hneq
        rw [hip] at hne2
        simp [hip, hne2]
      · rw [if_neg hip] at hmemmod
        have hlook : lookupContent (modifyFS fs p newc) it.path = some it.content :=
          lookupContent_of_mem _ it hmemmod hdir hnd3
        rw [show (⟨CalculateCRC32 ⟨it.path, it.content⟩, it.path⟩ : Entry).path = it.path
          from rfl]
        rw [hlook]
        simp [hip, CalculateCRC32_eq_bytes]
    have hcl := classify_flag_filterMap (modifyFS fs p newc)
      (fun e => decide (¬e.path = p)) (CreateCRC32Sums fs).1 hflag
    rw [VerifyCRC32Sums, verify_foldl _ _ ([], []), hscan]
    rw [hcl.1, hcl.2]
    have hpass : (((CreateCRC32Sums fs).1).filter
        (fun e => decide (¬e.path = p))).map (fun e => e.path) =
        (filePaths fs).filter (fun q => decide (q ≠ p)) := by
      rw [← hpaths, List.filter_map]
      rfl
    have hfail : (((CreateCRC32Sums fs).1).filter
        (fun e => !decide (¬e.path = p))).map (fun e => e.path) = [p] := by
      have hsame : (((CreateCRC32Sums fs).1).filter (fun e => !decide (¬e.path = p))) =
          (((CreateCRC32Sums fs).1).filter (fun e => decide (e.path = p))) := by
        apply List.filter_congr
        intro e _
        simp [decide_not]
      rw [hsame]
      apply filter_path_eq _ p hnd2
      rw [hpaths]
      rw [← hitp_path]
      unfold filePaths
      apply List.mem_map_of_mem
      rw [List.mem_filter]
      exact ⟨hitp, by simp [hitp_dir]⟩
    rw [hpass, hfail]
    simp

/-- Witness for C5 on a one-file directory: the fresh manifest passes
the file, and modifying its byte changes the digest and fails exactly
that file. -/
theorem C5_witness :
    VerifyCRC32Sums (CreateCRC32Sums [⟨"f".data, false, [104, 105]⟩]).2
      [⟨"f".data, false, [104, 105]⟩] = (filePaths [⟨"f".data, false, [104, 105]⟩], []) ∧
    VerifyCRC32Sums (CreateCRC32Sums [⟨"f".data, false, [104, 105]⟩]).2
      (modifyFS [⟨"f".data, false, [104, 105]⟩] "f".data [106]) =
      ((filePaths [⟨"f".data, false, [104, 105]⟩]).filter
        (fun q => decide (q ≠ "f".data)), ["f".data]) :=
  ⟨(C5_amended [⟨"f".data, false, [104, 105]⟩] (by decide)).1,
   (C5_amended [⟨"f".data, false, [104, 105]⟩] (by decide)).2 "f".data [104, 105] [106]
     (by decide) (by decide)⟩

/-! ### Structure of target paths under the destination directory -/

theorem toTar_size (e : TreeEntry) : (toTar e).size = regSize e := by
  cases e with
  | mk rp k m c l => cases k <;> rfl

theorem regSize_nonneg (e : TreeEntry) : 0 ≤ regSize e := by
  cases e with
  | mk rp k m c l => cases k <;> simp [regSize]

theorem regSize_sum_nonneg (l : List TreeEntry) : 0 ≤ (l.map regSize).sum := by
  apply List.sum_nonneg
  intro x hx
  obtain ⟨e, _, rfl⟩ := List.mem_map.mp hx
  exact regSize_nonneg e

theorem goIsAbs_append (a b : GoStr) (ha : a ≠ []) : goIsAbs (a ++ b) = goIsAbs a := by
  cases a with
  | nil => exact absurd rfl ha
  | cons c cs => rfl

theorem renderPath_ne_nil (r : Bool) (segs : List GoStr)
    (h : ∀ t ∈ segs, t ≠ []) : renderPath r segs ≠ [] := by
  cases r with
  | true => simp [renderPath]
  | false =>
    cases segs with
    | nil => simp [renderPath, dotS]
    | cons s rest =>
      obtain ⟨c, s2, rfl⟩ : ∃ c s2, s = c :: s2 := by
        cases s with
        | nil => exact absurd rfl (h [] (by simp))
        | cons c s2 => exact ⟨c, s2, rfl⟩
      cases rest <;> simp [renderPath, joinSegs]

theorem renderPath_concat (r : Bool) (A : List GoStr) (x : GoStr) (hA : A ≠ []) :
    renderPath r (A ++ [x]) = renderPath r A ++ '/' :: x := by
  have hj : joinSegs (A ++ [x]) = joinSegs A ++ '/' :: x := by
    rw [joinSegs_append A [x] hA (by simp)]
    rfl
  cases r with
  | true => simp [renderPath, hj]
  | false => simp [renderPath, hj, hA, List.isEmpty_iff]

theorem pathChain_render (r : Bool) (segs : List GoStr)
    (h : ∀ t ∈ segs, t ≠ [] ∧ '/' ∉ t ∧ t ≠ dotS) :
    pathChain (renderPath r segs) =
      (List.range segs.length).map (fun i => renderPath r (segs.take (i + 1))) := by
  unfold pathChain
  rw [goIsAbs_render r segs (fun t ht => ⟨(h t ht).1, (h t ht).2.1⟩)]
  rw [show dropEmptyDot (splitSlash (renderPath r segs)) = segsOf (renderPath r segs)
    from rfl]
  rw [segsOf_render r segs h]

theorem pathChain_concat (r : Bool) (A : List GoStr) (x : GoStr)
    (hgood : ∀ t ∈ A ++ [x], t ≠ [] ∧ '/' ∉ t ∧ t ≠ dotS) :
    pathChain (renderPath r (A ++ [x])) =
      (List.range A.length).map (fun i => renderPath r (A.take (i + 1))) ++
        [renderPath r (A ++ [x])] := by
  rw [pathChain_render r (A ++ [x]) hgood]
  rw [show (A ++ [x]).length = A.length + 1 from by simp]
  rw [List.range_succ, List.map_append]
  congr 1
  · apply List.map_congr_left
    intro i hi
    have hile : i + 1 ≤ A.length := List.mem_range.mp hi
    rw [List.take_append_of_le_length hile]
  · simp [List.take_of_length_le]

theorem dropWhile_append_all {p : Char → Bool} (a b : GoStr) (h : ∀ c ∈ a, p c = true) :
    (a ++ b).dropWhile p = b.dropWhile p := by
  induction a with
  | nil => rfl
  | cons c a2 ih =>
    rw [List.cons_append, List.dropWhile_cons]
    rw [h c (by simp)]
    exact ih (fun x hx => h x (by simp [hx]))

theorem takeToLastSlash_concat (y x : GoStr) (hx : '/' ∉ x) :
    takeToLastSlash (y ++ '/' :: x) = y ++ ['/'] := by
  unfold takeToLastSlash
  rw [List.reverse_append, List.reverse_cons]
  rw [List.append_assoc]
  rw [dropWhile_append_all x.reverse _ (by
    intro c hc
    have : c ∈ x := List.mem_reverse.mp hc
    simp only [decide_eq_true_eq]
    intro he
    exact hx (he ▸ this))]
  rw [show ['/'] ++ y.reverse = '/' :: y.reverse from rfl]
  rw [List.dropWhile_cons]
  simp

theorem takeToLastSlash_no_slash (x : GoStr) (hx : '/' ∉ x) :
    takeToLastSlash x = [] := by
  unfold takeToLastSlash
  rw [show x.reverse = x.reverse ++ [] from by simp]
  rw [dropWhile_append_all x.reverse [] (by
    intro c hc
    have : c ∈ x := List.mem_reverse.mp hc
    simp only [decide_eq_true_eq]
    intro he
    exact hx (he ▸ this))]
  rfl

theorem cleanStack_dest_replay (d : GoStr) (X : List GoStr)
    (hXdd : ∀ t ∈ X, t ≠ dotdotS) :
    ((cleanStack (goIsAbs d) d).reverse ++ X).foldl (cleanStep (goIsAbs d)) [] =
      X.reverse ++ cleanStack (goIsAbs d) d := by
  rw [List.foldl_append]
  rw [cleanFold_replay (goIsAbs d) (cleanStack (goIsAbs d) d)
    (cleanStack_stackOK (goIsAbs d) d)]
  exact cleanFold_no_dotdot (goIsAbs d) X hXdd _

theorem goClean_render_dest (d : GoStr) (X : List GoStr)
    (hX : ∀ t ∈ X, t ≠ [] ∧ '/' ∉ t ∧ t ≠ dotS ∧ t ≠ dotdotS) :
    goClean (renderPath (goIsAbs d) ((cleanStack (goIsAbs d) d).reverse ++ X)) =
      renderPath (goIsAbs d) ((cleanStack (goIsAbs d) d).reverse ++ X) := by
  have hDrev : ∀ t ∈ (cleanStack (goIsAbs d) d).reverse, t ≠ [] ∧ '/' ∉ t ∧ t ≠ dotS :=
    fun t ht => cleanStack_elem_good (goIsAbs d) d t (List.mem_reverse.mp ht)
  have hall : ∀ t ∈ (cleanStack (goIsAbs d) d).reverse ++ X,
      t ≠ [] ∧ '/' ∉ t ∧ t ≠ dotS := by
    intro t ht
    rcases List.mem_append.mp ht with h1 | h2
    · exact hDrev t h1
    · exact ⟨(hX t h2).1, (hX t h2).2.1, (hX t h2).2.2.1⟩
  rw [goClean]
  rw [goIsAbs_render _ _ (fun t ht => ⟨(hall t ht).1, (hall t ht).2.1⟩)]
  have hstack : cleanStack (goIsAbs d)
      (renderPath (goIsAbs d) ((cleanStack (goIsAbs d) d).reverse ++ X)) =
      X.reverse ++ cleanStack (goIsAbs d) d := by
    rw [cleanStack_fold_eq, segsOf_render _ _ hall]
    exact cleanStack_dest_replay d X (fun t ht => (hX t ht).2.2.2)
  rw [hstack]
  congr 1
  rw [List.reverse_append, List.reverse_reverse]

theorem goDir_join (d : GoStr) (segs : List GoStr) (x : GoStr)
    (hsegs : ∀ t ∈ segs, t ≠ [] ∧ '/' ∉ t ∧ t ≠ dotS ∧ t ≠ dotdotS)
    (hx : x ≠ [] ∧ '/' ∉ x ∧ x ≠ dotS) :
    goDir (renderPath (goIsAbs d) ((cleanStack (goIsAbs d) d).reverse ++ (segs ++ [x]))) =
      renderPath (goIsAbs d) ((cleanStack (goIsAbs d) d).reverse ++ segs) := by
  have hDrev : ∀ t ∈ (cleanStack (goIsAbs d) d).reverse, t ≠ [] ∧ '/' ∉ t ∧ t ≠ dotS :=
    fun t ht => cleanStack_elem_good (goIsAbs d) d t (List.mem_reverse.mp ht)
  have hAgood : ∀ t ∈ (cleanStack (goIsAbs d) d).reverse ++ segs,
      t ≠ [] ∧ '/' ∉ t ∧ t ≠ dotS := by
    intro t ht
    rcases List.mem_append.mp ht with h1 | h2
    · exact hDrev t h1
    · exact ⟨(hsegs t h2).1, (hsegs t h2).2.1, (hsegs t h2).2.2.1⟩
  rw [show (cleanStack (goIsAbs d) d).reverse ++ (segs ++ [x]) =
      ((cleanStack (goIsAbs d) d).reverse ++ segs) ++ [x] from by
    rw [List.append_assoc]]
  by_cases hAnil : (cleanStack (goIsAbs d) d).reverse ++ segs = []
  · rw [hAnil]
    have hseg0 : segs = [] := by
      rcases List.append_eq_nil.mp hAnil with ⟨_, h2⟩
      exact h2
    have hstack0 : cleanStack (goIsAbs d) d = [] := by
      rcases List.append_eq_nil.mp hAnil with ⟨h1, _⟩
      simpa using h1
    cases hr : goIsAbs d with
    | true =>
      rw [show renderPath true ([] ++ [x]) = '/' :: x from by
        simp [renderPath, joinSegs]]
      rw [goDir, show ('/' : Char) :: x = [] ++ '/' :: x from rfl,
        takeToLastSlash_concat [] x hx.2.1]
      rfl
    | false =>
      rw [show renderPath false ([] ++ [x]) = x from by
        simp [renderPath, joinSegs, List.isEmpty_iff, hx.1]]
      rw [goDir, takeToLastSlash_no_slash x hx.2.1]
      rfl
  · rw [renderPath_concat _ _ x hAnil]
    set R := renderPath (goIsAbs d) ((cleanStack (goIsAbs d) d).reverse ++ segs) with hRdef
    rw [goDir, takeToLastSlash_concat _ x hx.2.1]
    have hrne : R ≠ [] := renderPath_ne_nil _ _ (fun t ht => (hAgood t ht).1)
    have habs2 : goIsAbs (R ++ ['/']) = goIsAbs d := by
      rw [goIsAbs_append _ _ hrne, hRdef]
      exact goIsAbs_render _ _ (fun t ht => ⟨(hAgood t ht).1, (hAgood t ht).2.1⟩)
    rw [goClean, habs2]
    have hsplit : splitSlash (R ++ ['/']) = splitSlash R ++ [[]] := by
      rw [show R ++ ['/'] = R ++ '/' :: [] from rfl]
      rw [show splitSlash (R ++ '/' :: []) = splitSlash R ++ splitSlash [] from
        splitOn_append '/' R []]
      rfl
    have hstack : cleanStack (goIsAbs d) (R ++ ['/']) =
        segs.reverse ++ cleanStack (goIsAbs d) d := by
      rw [cleanStack_fold_eq]
      rw [show segsOf (R ++ ['/']) = segsOf R from by
        unfold segsOf
        rw [hsplit, dropEmptyDot_append]
        simp [dropEmptyDot, dotS]]
      rw [hRdef, segsOf_render _ _ hAgood]
      exact cleanStack_dest_replay d segs (fun t ht => (hsegs t ht).2.2.2)
    rw [hstack]
    rw [hRdef]
    congr 1
    rw [List.reverse_append, List.reverse_reverse]

/-! ### Looking paths up in the modelled destination filesystem -/

theorem fsFind_append_of_none (fs1 fs2 : FS) (k : GoStr) (h : fsFind fs1 k = none) :
    fsFind (fs1 ++ fs2) k = fsFind fs2 k := by
  unfold fsFind at h ⊢
  rw [List.find?_append]
  cases hf : fs1.find? (fun kv => kv.1 == k) with
  | none => simp
  | some kv => rw [hf] at h; simp at h

theorem fsFind_append_of_some (fs1 fs2 : FS) (k : GoStr) (n : Node)
    (h : fsFind fs1 k = some n) : fsFind (fs1 ++ fs2) k = some n := by
  unfold fsFind at h ⊢
  rw [List.find?_append]
  cases hf : fs1.find? (fun kv => kv.1 == k) with
  | none => rw [hf] at h; simp at h
  | some kv =>
    rw [hf] at h
    simpa using h

theorem fsFind_singleton_self (k : GoStr) (n : Node) : fsFind [(k, n)] k = some n := by
  unfold fsFind
  simp

theorem fsFind_const_map_mem (l : List GoStr) (nd : Node) (k : GoStr) (hk : k ∈ l) :
    fsFind (l.map (fun q => (q, nd))) k = some nd := by
  induction l with
  | nil => simp at hk
  | cons q rest ih =>
    by_cases hq : q = k
    · unfold fsFind
      rw [List.map_cons, List.find?_cons_of_pos _ (by simp [hq])]
      rfl
    · unfold fsFind at ih ⊢
      rw [List.map_cons, List.find?_cons_of_neg _ (by simp [hq])]
      rcases List.mem_cons.mp hk with h1 | h2
      · exact absurd h1.symm hq
      · exact ih h2

theorem fsFind_const_map_not_mem (l : List GoStr) (nd : Node) (k : GoStr) (hk : k ∉ l) :
    fsFind (l.map (fun q => (q, nd))) k = none := by
  induction l with
  | nil => rfl
  | cons q rest ih =>
    unfold fsFind at ih ⊢
    rw [List.map_cons, List.find?_cons_of_neg _ (by
      intro he
      have hqk : q = k := by simpa using he
      exact hk (by simp [← hqk]))]
    exact ih (fun h2 => hk (List.mem_cons_of_mem _ h2))

theorem fsFind_keyed_map {α : Type} (f : α → GoStr × Node) (l : List α) (a : α)
    (ha : a ∈ l) (hnd : (l.map (fun x => (f x).1)).Nodup) :
    fsFind (l.map f) (f a).1 = some (f a).2 := by
  induction l with
  | nil => simp at ha
  | cons x rest ih =>
    rcases List.mem_cons.mp ha with h1 | h2
    · subst h1
      unfold fsFind
      rw [List.map_cons, List.find?_cons_of_pos _ (by
        show ((f a).1 == (f a).1) = true
        exact beq_self_eq_true _)]
      rfl
    · have hne : ((f x).1 == (f a).1) = false := by
        have hx : (f x).1 ∉ rest.map (fun y => (f y).1) :=
          (List.nodup_cons.mp hnd).1
        have hin : (f a).1 ∈ rest.map (fun y => (f y).1) :=
          List.mem_map_of_mem _ h2
        simp only [beq_eq_false_iff_ne, ne_eq]
        intro he
        exact hx (he ▸ hin)

      unfold fsFind at ih ⊢
      rw [List.map_cons, List.find?_cons_of_neg _ (by simp [hne])]
      exact ih h2 (List.nodup_cons.mp hnd).2

theorem fsFind_keyed_map_none {α : Type} (f : α → GoStr × Node) (l : List α) (k : GoStr)
    (hk : k ∉ l.map (fun x => (f x).1)) :
    fsFind (l.map f) k = none := by
  induction l with
  | nil => rfl
  | cons x rest ih =>
    unfold fsFind at ih ⊢
    rw [List.map_cons, List.find?_cons_of_neg _ (by
      intro he
      have hkey : (f x).1 = k := by simpa using he
      exact hk (by rw [List.map_cons]; simp [← hkey]))]
    exact ih (fun h2 => hk (by rw [List.map_cons]; exact List.mem_cons_of_mem _ h2))

/-! ### `MkdirAll` on chains of existing directories -/

theorem mkdirChain_present (mode : Nat) (l : List GoStr) :
    ∀ fs : FS, (∀ q ∈ l, ∃ m, fsFind fs q = some (Node.dirn m)) →
      l.foldlM
        (fun acc q =>
          match fsFind acc q with
          | some (.dirn _) => some acc
          | some _ => none
          | none => some (acc ++ [(q, .dirn mode)]))
        fs = some fs := by
  induction l with
  | nil => intro fs _; rfl
  | cons q rest ih =>
    intro fs h
    obtain ⟨m, hm⟩ := h q (by simp)
    rw [List.foldlM_cons, hm]
    exact ih fs (fun x hx => h x (by simp [hx]))

theorem mkdirAll_present (fs : FS) (p : GoStr) (mode : Nat)
    (h : ∀ q ∈ pathChain p, ∃ m, fsFind fs q = some (Node.dirn m)) :
    mkdirAll fs p mode = some fs := by
  unfold mkdirAll
  exact mkdirChain_present mode (pathChain p) fs h

theorem mkdirAll_concat (fs : FS) (p : GoStr) (mode : Nat) (init : List GoStr)
    (lastp : GoStr) (hchain : pathChain p = init ++ [lastp])
    (hinit : ∀ q ∈ init, ∃ m, fsFind fs q = some (Node.dirn m))
    (hlast : fsFind fs lastp = none) :
    mkdirAll fs p mode = some (fs ++ [(lastp, Node.dirn mode)]) := by
  unfold mkdirAll
  rw [hchain, List.foldlM_append]
  rw [mkdirChain_present mode init fs hinit]
  simp only [Option.bind_eq_bind, Option.some_bind, List.foldlM_cons, List.foldlM_nil, hlast]
  rfl

/-! ### Injectivity of rendered target paths -/

theorem render_inj (r : Bool) (a b : List GoStr)
    (ha : ∀ t ∈ a, t ≠ [] ∧ '/' ∉ t ∧ t ≠ dotS)
    (hb : ∀ t ∈ b, t ≠ [] ∧ '/' ∉ t ∧ t ≠ dotS)
    (h : renderPath r a = renderPath r b) : a = b := by
  have h2 := congrArg segsOf h
  rw [segsOf_render r a ha, segsOf_render r b hb] at h2
  exact h2

theorem goJoin_inj (d : GoStr) (hdne : d ≠ []) (p q : GoStr)
    (hp : GoodRel p) (hq : GoodRel q) (h : goJoin d p = goJoin d q) : p = q := by
  rw [goJoin_eq_render d p hdne hp, goJoin_eq_render d q hdne hq] at h
  have hDrev : ∀ t ∈ (cleanStack (goIsAbs d) d).reverse, t ≠ [] ∧ '/' ∉ t ∧ t ≠ dotS :=
    fun t ht => cleanStack_elem_good _ d t (List.mem_reverse.mp ht)
  have hsegs := render_inj (goIsAbs d) _ _
    (by
      intro t ht
      rcases List.mem_append.mp ht with h1 | h2
      · exact hDrev t h1
      · exact ⟨(hp.2.2.2.1 t h2).1, (hp.2.2.2.1 t h2).2.1, (hp.2.2.2.1 t h2).2.2.1⟩)
    (by
      intro t ht
      rcases List.mem_append.mp ht with h1 | h2
      · exact hDrev t h1
      · exact ⟨(hq.2.2.2.1 t h2).1, (hq.2.2.2.1 t h2).2.1, (hq.2.2.2.1 t h2).2.2.1⟩)
    h
  have hseq : segsOf p = segsOf q := List.append_cancel_left hsegs
  rw [hp.2.2.2.2, hq.2.2.2.2, hseq]

/-! ### Applying one well-formed packed entry to the destination -/

theorem applyEntry_good (d : GoStr) (m0 : Nat) (hd : goClean d ≠ dotS)
    (pre : List TreeEntry) (e : TreeEntry)
    (hpre : ∀ a ∈ pre, GoodRel a.relPath) (he : GoodRel e.relPath)
    (hnd : (pre.map (fun a => a.relPath)).Nodup)
    (hfresh : e.relPath ∉ pre.map (fun a => a.relPath))
    (hanc : ∀ q ∈ ancestorsStrict (segsOf e.relPath),
      ∃ a ∈ pre, a.kind = FKind.dir ∧ segsOf a.relPath = q) :
    applyEntry d (initFS d m0 ++ pre.map (extractedNode d)) (toTar e) =
      some ((initFS d m0 ++ pre.map (extractedNode d)) ++ [extractedNode d e]) := by
  have hdne : d ≠ [] := fun h0 => hd (h0 ▸ goClean_nil)
  obtain ⟨hene, habs, hesne, hesegs, herepr⟩ := he
  have hDgood : ∀ t ∈ (cleanStack (goIsAbs d) d).reverse, t ≠ [] ∧ '/' ∉ t ∧ t ≠ dotS :=
    fun t ht => cleanStack_elem_good _ d t (List.mem_reverse.mp ht)
  have heGood3 : ∀ t ∈ segsOf e.relPath, t ≠ [] ∧ '/' ∉ t ∧ t ≠ dotS :=
    fun t ht => ⟨(hesegs t ht).1, (hesegs t ht).2.1, (hesegs t ht).2.2.1⟩
  have htgt : goJoin d e.relPath =
      renderPath (goIsAbs d)
        ((cleanStack (goIsAbs d) d).reverse ++ segsOf e.relPath) :=
    goJoin_eq_render d e.relPath hdne ⟨hene, habs, hesne, hesegs, herepr⟩
  have hkeysN : (pre.map (fun x => (extractedNode d x).1)).Nodup := by
    have heq : pre.map (fun x => (extractedNode d x).1) =
        (pre.map (fun x => x.relPath)).map (goJoin d) := by
      rw [List.map_map]
      rfl
    rw [heq]
    apply List.Nodup.map_on ?_ hnd
    intro x hx y hy hxy
    obtain ⟨a, ha, rfl⟩ := List.mem_map.mp hx
    obtain ⟨b, hb, rfl⟩ := List.mem_map.mp hy
    exact goJoin_inj d hdne _ _ (hpre a ha) (hpre b hb) hxy
  have hchainD : pathChain (goClean d) =
      (List.range (cleanStack (goIsAbs d) d).reverse.length).map
        (fun i => renderPath (goIsAbs d)
          ((cleanStack (goIsAbs d) d).reverse.take (i + 1))) := by
    rw [show goClean d =
      renderPath (goIsAbs d) (cleanStack (goIsAbs d) d).reverse from rfl]
    exact pathChain_render _ _ hDgood
  have hnotchain : ∀ (Y : List GoStr), Y ≠ [] →
      (∀ t ∈ Y, t ≠ [] ∧ '/' ∉ t ∧ t ≠ dotS) →
      renderPath (goIsAbs d) ((cleanStack (goIsAbs d) d).reverse ++ Y) ∉
        pathChain (goClean d) := by
    intro Y hY hYg hmem
    rw [hchainD] at hmem
    obtain ⟨i, hi, heqk⟩ := List.mem_map.mp hmem
    have hi2 : i < (cleanStack (goIsAbs d) d).reverse.length := List.mem_range.mp hi
    have heq2 := render_inj (goIsAbs d) _ _
      (fun t ht => hDgood t (List.mem_of_mem_take ht))
      (by
        intro t ht
        rcases List.mem_append.mp ht with h1 | h2
        · exact hDgood t h1
        · exact hYg t h2)
      heqk
    have hlen := congrArg List.length heq2
    rw [List.length_take, List.length_append] at hlen
    have hY0 : 0 < Y.length := List.length_pos.mpr hY
    omega
  have hDfind : ∀ q ∈ pathChain (goClean d),
      fsFind (initFS d m0 ++ pre.map (extractedNode d)) q = some (Node.dirn m0) := by
    intro q hq
    apply fsFind_append_of_some
    unfold initFS
    exact fsFind_const_map_mem _ _ _ hq
  have hancfind : ∀ j, j + 1 < (segsOf e.relPath).length →
      ∃ m, fsFind (initFS d m0 ++ pre.map (extractedNode d))
        (renderPath (goIsAbs d)
          ((cleanStack (goIsAbs d) d).reverse ++ (segsOf e.relPath).take (j + 1))) =
        some (Node.dirn m) := by
    intro j hj
    obtain ⟨a, ha, hak, haseg⟩ := hanc ((segsOf e.relPath).take (j + 1)) (by
      unfold ancestorsStrict
      exact List.mem_map.mpr ⟨j, List.mem_range.mpr (by omega), rfl⟩)
    have htgood : ∀ t ∈ (segsOf e.relPath).take (j + 1), t ≠ [] ∧ '/' ∉ t ∧ t ≠ dotS :=
      fun t ht => heGood3 t (List.mem_of_mem_take ht)
    have htne : (segsOf e.relPath).take (j + 1) ≠ [] := by
      apply List.length_pos.mp
      rw [List.length_take]
      omega
    have hinitnone : fsFind (initFS d m0)
        (renderPath (goIsAbs d)
          ((cleanStack (goIsAbs d) d).reverse ++ (segsOf e.relPath).take (j + 1))) =
        none := by
      unfold initFS
      exact fsFind_const_map_not_mem _ _ _ (hnotchain _ htne htgood)
    rw [fsFind_append_of_none _ _ _ hinitnone]
    refine ⟨a.mode, ?_⟩
    have hkey : (extractedNode d a).1 =
        renderPath (goIsAbs d)
          ((cleanStack (goIsAbs d) d).reverse ++ (segsOf e.relPath).take (j + 1)) := by
      show goJoin d a.relPath = _
      rw [goJoin_eq_render d a.relPath hdne (hpre a ha), haseg]
    have hnode : (extractedNode d a).2 = Node.dirn a.mode := by
      show (match a.kind with
        | FKind.reg => Node.file a.mode a.content
        | FKind.dir => Node.dirn a.mode
        | FKind.symlink => Node.symlinkn a.linkTarget) = Node.dirn a.mode
      rw [hak]
    rw [← hkey, ← hnode]
    exact fsFind_keyed_map (extractedNode d) pre a ha hkeysN
  have htgtnone : fsFind (initFS d m0 ++ pre.map (extractedNode d))
      (renderPath (goIsAbs d)
        ((cleanStack (goIsAbs d) d).reverse ++ segsOf e.relPath)) = none := by
    have h1 : fsFind (initFS d m0)
        (renderPath (goIsAbs d)
          ((cleanStack (goIsAbs d) d).reverse ++ segsOf e.relPath)) = none := by
      unfold initFS
      exact fsFind_const_map_not_mem _ _ _ (hnotchain _ hesne heGood3)
    rw [fsFind_append_of_none _ _ _ h1]
    apply fsFind_keyed_map_none
    intro hmem
    obtain ⟨a, ha, hkeyeq⟩ := List.mem_map.mp hmem
    have hkey2 : goJoin d a.relPath =
        renderPath (goIsAbs d)
          ((cleanStack (goIsAbs d) d).reverse ++ segsOf e.relPath) := hkeyeq
    rw [goJoin_eq_render d a.relPath hdne (hpre a ha)] at hkey2
    have haGood3 : ∀ t ∈ segsOf a.relPath, t ≠ [] ∧ '/' ∉ t ∧ t ≠ dotS := by
      intro t ht
      exact ⟨((hpre a ha).2.2.2.1 t ht).1, ((hpre a ha).2.2.2.1 t ht).2.1,
        ((hpre a ha).2.2.2.1 t ht).2.2.1⟩
    have hsegeq := render_inj (goIsAbs d) _ _
      (by
        intro t ht
        rcases List.mem_append.mp ht with h1 | h2
        · exact hDgood t h1
        · exact haGood3 t h2)
      (by
        intro t ht
        rcases List.mem_append.mp ht with h1 | h2
        · exact hDgood t h1
        · exact heGood3 t h2)
      hkey2
    have hseq : segsOf a.relPath = segsOf e.relPath := List.append_cancel_left hsegeq
    have hre : a.relPath = e.relPath := by
      rw [(hpre a ha).2.2.2.2, herepr, hseq]
    exact hfresh (hre ▸ List.mem_map_of_mem _ ha)
  have hchain_present : ∀ i,
      i + 1 ≤ (cleanStack (goIsAbs d) d).reverse.length + (segsOf e.relPath).length - 1 →
      ∃ m, fsFind (initFS d m0 ++ pre.map (extractedNode d))
        (renderPath (goIsAbs d)
          (((cleanStack (goIsAbs d) d).reverse ++ segsOf e.relPath).take (i + 1))) =
        some (Node.dirn m) := by
    intro i hi
    by_cases hsmall : i + 1 ≤ (cleanStack (goIsAbs d) d).reverse.length
    · rw [List.take_append_of_le_length hsmall]
      refine ⟨m0, ?_⟩
      apply hDfind
      rw [hchainD]
      exact List.mem_map.mpr ⟨i, List.mem_range.mpr (by omega), rfl⟩
    · have hi3 : i + 1 = (cleanStack (goIsAbs d) d).reverse.length +
          ((i - (cleanStack (goIsAbs d) d).reverse.length) + 1) := by omega
      rw [hi3, List.take_append]
      apply hancfind
      have h0 : 1 ≤ (segsOf e.relPath).length :=
        List.length_pos.mpr hesne
      omega
  have hesegs_decomp : segsOf e.relPath =
      (segsOf e.relPath).dropLast ++ [(segsOf e.relPath).getLast hesne] :=
    (List.dropLast_append_getLast hesne).symm
  have hlastgood : (segsOf e.relPath).getLast hesne ≠ [] ∧
      '/' ∉ (segsOf e.relPath).getLast hesne ∧
      (segsOf e.relPath).getLast hesne ≠ dotS :=
    heGood3 _ (List.getLast_mem hesne)
  have hdropgood : ∀ t ∈ (segsOf e.relPath).dropLast,
      t ≠ [] ∧ '/' ∉ t ∧ t ≠ dotS ∧ t ≠ dotdotS := by
    intro t ht
    have ht2 := (List.dropLast_sublist (segsOf e.relPath)).subset ht
    exact ⟨(hesegs t ht2).1, (hesegs t ht2).2.1, (hesegs t ht2).2.2.1,
      (hesegs t ht2).2.2.2.1⟩
  have hdir_parent : goDir (goJoin d e.relPath) =
      renderPath (goIsAbs d)
        ((cleanStack (goIsAbs d) d).reverse ++ (segsOf e.relPath).dropLast) := by
    rw [htgt]
    rw [show (cleanStack (goIsAbs d) d).reverse ++ segsOf e.relPath =
        (cleanStack (goIsAbs d) d).reverse ++
          ((segsOf e.relPath).dropLast ++ [(segsOf e.relPath).getLast hesne]) from by
      rw [← hesegs_decomp]]
    exact goDir_join d _ _ hdropgood hlastgood
  have htake_eq : ∀ n,
      n ≤ (cleanStack (goIsAbs d) d).reverse.length + (segsOf e.relPath).length - 1 →
      ((cleanStack (goIsAbs d) d).reverse ++ (segsOf e.relPath).dropLast).take n =
      ((cleanStack (goIsAbs d) d).reverse ++ segsOf e.relPath).take n := by
    intro n hn
    rw [List.take_append_eq_append_take, List.take_append_eq_append_take]
    congr 1
    rw [List.dropLast_eq_take, List.take_take]
    congr 1
    have h0 : 1 ≤ (segsOf e.relPath).length := List.length_pos.mpr hesne
    omega
  have hparent_present : mkdirAll (initFS d m0 ++ pre.map (extractedNode d))
      (goDir (goJoin d e.relPath)) 493 =
      some (initFS d m0 ++ pre.map (extractedNode d)) := by
    rw [hdir_parent]
    apply mkdirAll_present
    intro q hq
    rw [pathChain_render _ _ (by
      intro t ht
      rcases List.mem_append.mp ht with h1 | h2
      · exact hDgood t h1
      · exact ⟨(hdropgood t h2).1, (hdropgood t h2).2.1, (hdropgood t h2).2.2.1⟩)] at hq
    obtain ⟨i, hi, rfl⟩ := List.mem_map.mp hq
    have hi2 := List.mem_range.mp hi
    rw [List.length_append, List.length_dropLast] at hi2
    have h0 : 1 ≤ (segsOf e.relPath).length := List.length_pos.mpr hesne
    rw [htake_eq (i + 1) (by omega)]
    exact hchain_present i (by omega)
  cases hkind : e.kind with
  | dir =>
    have htf : (toTar e).typeflag = TypeFlag.dir := by simp [toTar, hkind]
    have happ : applyEntry d (initFS d m0 ++ pre.map (extractedNode d)) (toTar e) =
        mkdirAll (initFS d m0 ++ pre.map (extractedNode d))
          (goJoin d e.relPath) (toTar e).mode := by
      unfold applyEntry
      rw [htf]
      rfl
    rw [happ]
    have hmode : (toTar e).mode = e.mode := rfl
    have hnode : extractedNode d e = (goJoin d e.relPath, Node.dirn e.mode) := by
      unfold extractedNode
      rw [hkind]
    rw [hmode, hnode, htgt]
    apply mkdirAll_concat _ _ _
      ((List.range ((cleanStack (goIsAbs d) d).reverse.length +
          (segsOf e.relPath).length - 1)).map
        (fun i => renderPath (goIsAbs d)
          (((cleanStack (goIsAbs d) d).reverse ++ segsOf e.relPath).take (i + 1))))
      _
    · rw [pathChain_render _ _ (by
        intro t ht
        rcases List.mem_append.mp ht with h1 | h2
        · exact hDgood t h1
        · exact heGood3 t h2)]
      have h0 : 1 ≤ (segsOf e.relPath).length := List.length_pos.mpr hesne
      rw [show ((cleanStack (goIsAbs d) d).reverse ++ segsOf e.relPath).length =
          ((cleanStack (goIsAbs d) d).reverse.length +
            (segsOf e.relPath).length - 1) + 1 from by
        rw [List.length_append]
        omega]
      rw [List.range_succ, List.map_append]
      congr 1
      rw [List.map_singleton]
      rw [List.take_of_length_le (by rw [List.length_append]; omega)]
    · intro q hq
      obtain ⟨i, hi, rfl⟩ := List.mem_map.mp hq
      refine hchain_present i ?_
      have := List.mem_range.mp hi
      omega
    · exact htgtnone
  | reg =>
    have htf : (toTar e).typeflag = TypeFlag.reg := by simp [toTar, hkind]
    have hcontent : (toTar e).content = e.content := by simp [toTar, hkind]
    have happ : applyEntry d (initFS d m0 ++ pre.map (extractedNode d)) (toTar e) =
        match mkdirAll (initFS d m0 ++ pre.map (extractedNode d))
            (goDir (goJoin d e.relPath)) 493 with
        | none => none
        | some fs1 =>
          match fsFind fs1 (goJoin d e.relPath) with
          | none => some (fs1 ++ [(goJoin d e.relPath,
              Node.file (toTar e).mode (toTar e).content)])
          | some (Node.file m _) => some (fsSet fs1 (goJoin d e.relPath)
              (Node.file m (toTar e).content))
          | some _ => none := by
      unfold applyEntry
      rw [htf]
      rfl
    have htn2 : fsFind (initFS d m0 ++ pre.map (extractedNode d))
        (goJoin d e.relPath) = none := by
      rw [htgt]
      exact htgtnone
    have hnode : extractedNode d e = (goJoin d e.relPath, Node.file e.mode e.content) := by
      unfold extractedNode
      rw [hkind]
    rw [happ, hparent_present]
    simp only [htn2, hnode, hcontent]
    rfl
  | symlink =>
    have htf : (toTar e).typeflag = TypeFlag.symlink := by simp [toTar, hkind]
    have hlink : (toTar e).linkname = e.linkTarget := by simp [toTar, hkind]
    have happ : applyEntry d (initFS d m0 ++ pre.map (extractedNode d)) (toTar e) =
        match mkdirAll (initFS d m0 ++ pre.map (extractedNode d))
            (goDir (goJoin d e.relPath)) 493 with
        | none => none
        | some fs1 =>
          match fsFind fs1 (goJoin d e.relPath) with
          | some _ => some fs1
          | none => some (fs1 ++ [(goJoin d e.relPath,
              Node.symlinkn (toTar e).linkname)]) := by
      unfold applyEntry
      rw [htf]
      rfl
    have htn2 : fsFind (initFS d m0 ++ pre.map (extractedNode d))
        (goJoin d e.relPath) = none := by
      rw [htgt]
      exact htgtnone
    have hnode : extractedNode d e =
        (goJoin d e.relPath, Node.symlinkn e.linkTarget) := by
      unfold extractedNode
      rw [hkind]
    rw [happ, hparent_present]
    simp only [htn2, hnode, hlink]

/-! ### The extraction loop replays a well-formed packed tree -/

theorem extract_aux (d : GoStr) (m0 : Nat) (hd : goClean d ≠ dotS) :
    ∀ (post pre : List TreeEntry) (dirs : List (List GoStr)),
      (∀ a ∈ pre ++ post, GoodRel a.relPath) →
      ((pre ++ post).map (fun a => a.relPath)).Nodup →
      (∀ q ∈ dirs, ∃ a ∈ pre, a.kind = FKind.dir ∧ segsOf a.relPath = q) →
      walkClosedFrom dirs post = true →
      (∀ a ∈ post, a.kind = FKind.reg → (a.content.length : Int) ≤ MaxFileSize) →
      ((pre ++ post).map regSize).sum ≤ MaxArchiveSize →
      (pre ++ post).length ≤ MaxFiles →
      extractEntries d (post.map toTar)
        ⟨initFS d m0 ++ pre.map (extractedNode d), (pre.map regSize).sum, pre.length⟩ =
      (⟨initFS d m0 ++ (pre ++ post).map (extractedNode d),
        ((pre ++ post).map regSize).sum, (pre ++ post).length⟩, Outcome.ok) := by
  intro post
  induction post with
  | nil =>
    intro pre dirs hgood hnd hdirs hwalk hsizes hsum hcount
    simp [extractEntries]
  | cons e rest ih =>
    intro pre dirs hgood hnd hdirs hwalk hsizes hsum hcount
    rw [walkClosedFrom, Bool.and_eq_true] at hwalk
    obtain ⟨hwalk1, hwalk2⟩ := hwalk
    have hegood : GoodRel e.relPath := hgood e (by simp)
    have hanc : ∀ q ∈ ancestorsStrict (segsOf e.relPath),
        ∃ a ∈ pre, a.kind = FKind.dir ∧ segsOf a.relPath = q := by
      intro q hq
      have hc := List.all_eq_true.mp hwalk1 q hq
      exact hdirs q (List.mem_of_elem_eq_true hc)
    have hnd2 : (pre.map (fun a => a.relPath) ++
        (e.relPath :: rest.map (fun a => a.relPath))).Nodup := by
      simpa using hnd
    have hfresh : e.relPath ∉ pre.map (fun a => a.relPath) := by
      have hdisj := (List.nodup_append.mp hnd2).2.2
      intro hin
      exact hdisj hin (by simp)
    have hndpre : (pre.map (fun a => a.relPath)).Nodup :=
      (List.nodup_append.mp hnd2).1
    have happly := applyEntry_good d m0 hd pre e (fun a ha => hgood a (by simp [ha]))
      hegood hndpre hfresh hanc
    have hsafe2 : isPathSafe (toTar e).name d = true := by
      rw [show (toTar e).name = e.relPath from rfl]
      exact isPathSafe_good e.relPath d hegood hd
    have hsz : (toTar e).size ≤ MaxFileSize := by
      rw [toTar_size]
      cases hk : e.kind with
      | reg =>
        have := hsizes e (by simp) hk
        simpa [regSize, hk] using this
      | dir =>
        simp only [regSize, hk]
        norm_num [MaxFileSize]
      | symlink =>
        simp only [regSize, hk]
        norm_num [MaxFileSize]
    have hsum_expand : ((pre ++ e :: rest).map regSize).sum =
        (pre.map regSize).sum + (regSize e + (rest.map regSize).sum) := by
      rw [List.map_append, List.sum_append, List.map_cons, List.sum_cons]
    have hrest_nonneg := regSize_sum_nonneg rest
    have htot : (pre.map regSize).sum + (toTar e).size ≤ MaxArchiveSize := by
      rw [toTar_size]
      rw [hsum_expand] at hsum
      omega
    have hcnt : pre.length + 1 ≤ MaxFiles := by
      rw [List.length_append, List.length_cons] at hcount
      omega
    have hgoal : extractEntries d ((toTar e) :: rest.map toTar)
        ⟨initFS d m0 ++ pre.map (extractedNode d), (pre.map regSize).sum, pre.length⟩ =
        extractEntries d (rest.map toTar)
          ⟨(initFS d m0 ++ pre.map (extractedNode d)) ++ [extractedNode d e],
           (pre.map regSize).sum + (toTar e).size, pre.length + 1⟩ := by
      rw [extractEntries]
      rw [if_neg (by simp [hsafe2])]
      rw [if_neg (not_lt.mpr hsz)]
      rw [if_neg (not_lt.mpr htot)]
      rw [if_neg (not_lt.mpr hcnt)]
      rw [happly]
    rw [List.map_cons, hgoal]
    have hstep : (initFS d m0 ++ pre.map (extractedNode d)) ++ [extractedNode d e] =
        initFS d m0 ++ (pre ++ [e]).map (extractedNode d) := by
      rw [List.map_append, List.map_singleton, List.append_assoc]
    have htot2 : (pre.map regSize).sum + (toTar e).size =
        ((pre ++ [e]).map regSize).sum := by
      rw [toTar_size, List.map_append, List.sum_append, List.map_singleton,
        List.sum_singleton]
    have hcnt2 : pre.length + 1 = (pre ++ [e]).length := by simp
    rw [hstep, htot2, hcnt2]
    have hassoc : pre ++ e :: rest = (pre ++ [e]) ++ rest := by simp
    rw [hassoc]
    exact ih (pre ++ [e]) (if e.kind = FKind.dir then segsOf e.relPath :: dirs else dirs)
      (by
        intro a ha
        exact hgood a (by rw [hassoc]; exact ha))
      (hassoc ▸ hnd)
      (by
        intro q hq
        by_cases hk : e.kind = FKind.dir
        · rw [if_pos hk] at hq
          rcases List.mem_cons.mp hq with h1 | h2
          · exact ⟨e, by simp, hk, h1.symm⟩
          · obtain ⟨a, ha, h3, h4⟩ := hdirs q h2
            exact ⟨a, by simp [ha], h3, h4⟩
        · rw [if_neg hk] at hq
          obtain ⟨a, ha, h3, h4⟩ := hdirs q hq
          exact ⟨a, by simp [ha], h3, h4⟩)
      hwalk2
      (fun a ha hk => hsizes a (by simp [ha]) hk)
      (hassoc ▸ hsum)
      (hassoc ▸ hcount)

/-! ### Claim C2 -/

/-- Counterexample to C2 as stated: a tree consisting of the single
regular file `"a..b"` — a legal file name that forms no `..` path
segment — packs fine, but extraction skips it (its name contains the
substring `".."`), so the extracted tree contains none of the packed
paths. -/
theorem C2_counterexample :
    (extractRun "/dst".data 493
      (Create [⟨"a..b".data, FKind.reg, 420, [1], []⟩]).1).1.fs =
      initFS "/dst".data 493 ∧
    fsFind (extractRun "/dst".data 493
      (Create [⟨"a..b".data, FKind.reg, 420, [1], []⟩]).1).1.fs
      (goJoin "/dst".data "a..b".data) = none := by
  exact ⟨by decide, by decide⟩

/-- C2 as amended: packing and then extracting reproduces the tree
exactly — for every walked tree whose relative paths are well-formed
and contain no `".."` substring, listed in walk order with ancestors
(as directories) before descendants and distinct paths, whose regular
files fit the 100 MiB per-file ceiling, whose total content fits the
1 GiB ceiling, with at most 10000 entries, extraction into any
destination that does not lexically clean to `"."` succeeds and
materialises exactly one node per packed entry, keyed by the joined
target path, preserving byte-identical content for regular files, the
permissions of regular files and directories, and symlink targets. -/
theorem C2_amended (tree : List TreeEntry) (d : GoStr) (m0 : Nat)
    (htree : GoodTree tree) (hd : goClean d ≠ dotS) :
    (extractRun d m0 (Create tree).1).2 = Outcome.ok ∧
    (extractRun d m0 (Create tree).1).1.fs =
      initFS d m0 ++ tree.map (extractedNode d) := by
  obtain ⟨h1, h2, h3, h4, h5, h6⟩ := htree
  have hmain := extract_aux d m0 hd tree [] []
    (by simpa using h1) (by simpa using h2) (by simp) h3 h4 (by simpa using h5)
    (by simpa using h6)
  have hrun : extractRun d m0 (Create tree).1 =
      (⟨initFS d m0 ++ tree.map (extractedNode d), (tree.map regSize).sum,
        tree.length⟩, Outcome.ok) := by
    rw [extractRun, Create_spec]
    simpa using hmain
  rw [hrun]
  exact ⟨rfl, rfl⟩

/-- Witness for C2 on a small tree (a directory, a regular file inside
it and a symlink) extracted into `"/dst"`. -/
theorem C2_witness :
    (extractRun "/dst".data 493 (Create
      [⟨"a".data, FKind.dir, 493, [], []⟩,
       ⟨"a/f".data, FKind.reg, 420, [104, 105], []⟩,
       ⟨"a/l".data, FKind.symlink, 511, [], "f".data⟩]).1).2 = Outcome.ok ∧
    (extractRun "/dst".data 493 (Create
      [⟨"a".data, FKind.dir, 493, [], []⟩,
       ⟨"a/f".data, FKind.reg, 420, [104, 105], []⟩,
       ⟨"a/l".data, FKind.symlink, 511, [], "f".data⟩]).1).1.fs =
      initFS "/dst".data 493 ++
        [⟨"a".data, FKind.dir, 493, [], []⟩,
         ⟨"a/f".data, FKind.reg, 420, [104, 105], []⟩,
         ⟨"a/l".data, FKind.symlink, 511, [], "f".data⟩].map
          (extractedNode "/dst".data) :=
  C2_amended
    [⟨"a".data, FKind.dir, 493, [], []⟩,
     ⟨"a/f".data, FKind.reg, 420, [104, 105], []⟩,
     ⟨"a/l".data, FKind.symlink, 511, [], "f".data⟩]
    "/dst".data 493 (by decide) (by decide)

end Apg
